import Mathlib

/-
Verification of the deku attribute-driven binary codec contract.

The repository ships a documentation-only module (`src/attributes.rs`)
describing the decode/encode behaviour of every `#[deku(...)]` attribute,
together with executable doctest examples.  The engine itself (the code
generated by the DekuRead/DekuWrite derive macros) is not part of the
repository sources, so the engine below is modelled from the specification,
and held to the concrete byte-level examples asserted by the doctests.
-/

namespace Deku

/-- Byte order selector, the value domain of the `endian` attribute. -/
inductive Endian where
  | big
  | little
deriving DecidableEq, Repr

/-- Modelled from the spec: the engine defaults to the platform ("system")
endianness when neither the field nor the container declares one; the
repository's doctests assert values that hold on a little-endian platform. -/
def systemEndian : Endian := .little

/-- Modelled from the spec: the error kinds of the engine (spec section 7).
`typeMismatch` stands for the schema/value shape mismatches that the original
system rules out statically through the host type system. -/
inductive Error where
  | insufficientData
  | valueOverflow
  | invalidCount
  | mapError
  | unknownVariant (disc : Nat)
  | hookError
  | typeMismatch
deriving DecidableEq, Repr

/-- Modelled from the spec: the decoded/encoded value domain.  `uint` is a
scalar field value, `seq` a `count`-driven sequence, `record` a struct value
(fields in declaration order), `variantVal` an enum value carrying the index
of the active variant, and `absent` the "absent representation" a conditional
field takes when its condition is false and no `default` is given
(`Option::None` in the reference system). -/
inductive Value where
  | uint (n : Nat)
  | seq (vs : List Value)
  | record (entries : List (String × Value))
  | variantVal (idx : Nat) (entries : List (String × Value))
  | absent

/-- The context environment: an ordered association list of named values
threaded from a container into its nested fields (spec section 3). -/
abbrev Scope := List (String × Value)

/-- First-match lookup in a scope. -/
def Scope.get (s : Scope) (n : String) : Option Value :=
  match s with
  | [] => none
  | (k, v) :: rest => if k = n then some v else Scope.get rest n

/-- Field size attribute: explicit bit width (`bits`), explicit byte width
(`bytes`), a width taken from the forwarded context, or the natural width of
the declared type.  Bit and byte width are mutually exclusive by
construction. -/
inductive SizeSpec where
  | bitsAttr (n : Nat)
  | bytesAttr (n : Nat)
  | fromCtx
  | natural

/-- Container-level endian attribute: a fixed byte order, one received from
the caller's context (the `endian = "endian", ctx = "endian: Endian"`
pattern), or none. -/
inductive EndianSpec where
  | fixed (e : Endian)
  | fromCtx
  | unspecified

/-- Variant id attribute: a single matching value (`id`), a predicate
(`id_pat`), or neither (catch-all). -/
inductive IdMatch where
  | idExpr (n : Nat)
  | idPat (p : Nat → Bool)
  | catchAll

mutual
/-- The declared type of a field: a fixed-width integer scalar or a nested
schema (struct or enum). -/
inductive TypeSpec where
  | scalar (natWidth : Nat)
  | nestedStruct (c : ContainerSpec)
  | nestedEnum (en : EnumSpec)

/-- Modelled from the spec: one field of a container schema (FieldSpec,
spec section 3).  Expression attributes (`cond`, `default`, `count`, `map`,
ctx arguments, `update`) are opaque callables over the enclosing scope, as
the spec prescribes.  `mapWrite` is the write-direction companion of `map`
(the spec resolves `map` without a paired writer to a hook error at encode
time).  Custom `reader`/`writer` bypass hooks are outside the modelled
fragment. -/
inductive FieldSpec where
  | mk (fname : String) (size : SizeSpec) (endian : Option Endian)
      (skipAttr : Bool)
      (condExpr : Option (Scope → Bool))
      (defaultExpr : Option (Scope → Value))
      (countExpr : Option (Scope → Int))
      (mapFn : Option (Value → Option Value))
      (mapWrite : Option (Value → Option Value))
      (ctxArgs : List (Scope → Value))
      (updateExpr : Option (Scope → Value))
      (ty : TypeSpec)

/-- Modelled from the spec: an ordered field list plus top-level attributes
(ContainerSpec, spec section 3). -/
inductive ContainerSpec where
  | mk (topEndian : EndianSpec) (ctxParams : List String) (ctxDefaults : List Value)
      (fields : List FieldSpec)

/-- Modelled from the spec: an enum schema (EnumSpec, spec section 3);
`idWidth` is the resolved bit width of the discriminant, `externalId` the
top-level `id` override expression evaluated in the caller's scope. -/
inductive EnumSpec where
  | mk (topEndian : EndianSpec) (ctxParams : List String) (ctxDefaults : List Value)
      (idWidth : Nat) (externalId : Option (Scope → Nat))
      (variants : List VariantSpec)

/-- Modelled from the spec: one enum variant (VariantSpec, spec section 3). -/
inductive VariantSpec where
  | mk (im : IdMatch) (fields : List FieldSpec)
end

/-- Field-spec projections (the inductive is declared with a single
constructor so that it can live in the mutual block). -/
def fieldName : FieldSpec → String
  | .mk n _ _ _ _ _ _ _ _ _ _ _ => n

def fieldSkip : FieldSpec → Bool
  | .mk _ _ _ s _ _ _ _ _ _ _ _ => s

def fieldCond : FieldSpec → Option (Scope → Bool)
  | .mk _ _ _ _ c _ _ _ _ _ _ _ => c

def fieldDefault : FieldSpec → Option (Scope → Value)
  | .mk _ _ _ _ _ d _ _ _ _ _ _ => d

def fieldUpdate : FieldSpec → Option (Scope → Value)
  | .mk _ _ _ _ _ _ _ _ _ _ u _ => u

def fieldTy : FieldSpec → TypeSpec
  | .mk _ _ _ _ _ _ _ _ _ _ _ t => t

def fieldMapFn : FieldSpec → Option (Value → Option Value)
  | .mk _ _ _ _ _ _ _ m _ _ _ _ => m

/-- Whether a value is the absent representation. -/
def isAbsent : Value → Bool
  | .absent => true
  | _ => false

/-- MSB-first interpretation of a bit list as an unsigned integer
(spec section 4.1: bits are addressed most-significant-bit first). -/
def bitsToNat : List Bool → Nat
  | [] => 0
  | b :: bs => (if b then 2 ^ bs.length else 0) + bitsToNat bs

/-- The low `w` bits of `v`, most significant first. -/
def natToBits : Nat → Nat → List Bool
  | 0, _ => []
  | w + 1, v => decide (v / 2 ^ w % 2 = 1) :: natToBits w v

/-- Modelled from the spec: `read_bits(n)` of the BitStream (spec
section 4.1) — take the next `n` bits, failing with `InsufficientData` when
fewer remain. -/
def readBits (n : Nat) (bits : List Bool) : Except Error (List Bool × List Bool) :=
  if n ≤ bits.length then .ok (bits.take n, bits.drop n) else .error .insufficientData

/-- Little-endian byte reassembly of an MSB-first bit buffer: successive
8-bit groups are bytes, the first byte is least significant. -/
def leNatOfBits : List Bool → Nat
  | b0 :: b1 :: b2 :: b3 :: b4 :: b5 :: b6 :: b7 :: rest =>
      bitsToNat [b0, b1, b2, b3, b4, b5, b6, b7] + 256 * leNatOfBits rest
  | other => bitsToNat other

/-- Little-endian byte serialisation: emit the low byte first, each byte
MSB-first on the stream. -/
def leBitsOfNat : Nat → Nat → List Bool
  | w + 8, v => natToBits 8 v ++ leBitsOfNat w (v / 256)
  | _, _ => []

/-- Modelled from the spec: `decode_scalar` of the Scalar Codec (spec
section 4.2).  For widths that are a multiple of 8 the bytes are reassembled
in the requested order (big-endian coincides with plain MSB-first reading);
for other widths the raw bits form a single unsigned integer with no
byte-order ambiguity. -/
def decodeScalarBits (w : Nat) (e : Endian) (l : List Bool) : Nat :=
  if e = .little ∧ w % 8 = 0 then leNatOfBits l else bitsToNat l

/-- Bit-level image of `encode_scalar` (spec section 4.2), the exact inverse
of `decodeScalarBits` on values that fit in `w` bits. -/
def encodeScalarBits (v w : Nat) (e : Endian) : List Bool :=
  if e = .little ∧ w % 8 = 0 then leBitsOfNat w v else natToBits w v

/-- Modelled from the spec: `encode_scalar`, failing with `ValueOverflow`
when the value does not fit in the declared width (spec sections 4.2, 7). -/
def encodeScalar (v w : Nat) (e : Endian) : Except Error (List Bool) :=
  if v < 2 ^ w then .ok (encodeScalarBits v w e) else .error .valueOverflow

/-- Endianness resolution for one field: field attribute over container
top-level attribute over platform default (spec section 4.3 step 3). -/
def effEndian (fe te : Option Endian) : Endian :=
  match fe, te with
  | some e, _ => e
  | none, some e => e
  | none, none => systemEndian

/-- The endian forwarded to a nested schema: the field attribute if any,
else the container's resolved top-level endian (the implicit prepending of
the `endian` attribute to a child's context, spec section 3). -/
def fwdEndian (fe te : Option Endian) : Option Endian :=
  match fe with
  | some e => some e
  | none => te

/-- Natural bit width of a declared type (only meaningful for scalars). -/
def naturalWidth : TypeSpec → Nat
  | .scalar w => w
  | _ => 0

/-- Size resolution: bits attribute over bytes attribute over context over
natural width (spec section 4.3 step 3). -/
def resolveWidth (s : SizeSpec) (natW : Nat) (ctxSz : Option Nat) : Nat :=
  match s with
  | .bitsAttr n => n
  | .bytesAttr n => 8 * n
  | .fromCtx => ctxSz.getD natW
  | .natural => natW

/-- The size forwarded to a nested schema (the implicit prepending of a
`bits`/`bytes` attribute to the child's context, spec section 3). -/
def fwdSize (s : SizeSpec) (ctxSz : Option Nat) : Option Nat :=
  match s with
  | .bitsAttr n => some n
  | .bytesAttr n => some (8 * n)
  | .fromCtx => ctxSz
  | .natural => none

/-- Resolve a container's top-level endian attribute against the endian the
caller forwarded. -/
def resolveTop (t : EndianSpec) (ctxE : Option Endian) : Option Endian :=
  match t with
  | .fixed e => some e
  | .fromCtx => ctxE
  | .unspecified => none

/-- Value of the `default` attribute, or the absent representation when no
`default` is declared. -/
def evalDefault (d : Option (Scope → Value)) (s : Scope) : Value :=
  match d with
  | some f => f s
  | none => .absent

/-- Whether a declared `cond` evaluates to false in the given scope. -/
def condFalse (c : Option (Scope → Bool)) (s : Scope) : Bool :=
  match c with
  | some cf => !cf s
  | none => false

/-- Apply a `map` attribute to the result of a read; a transform failure
surfaces as `MapError` (spec section 4.3 step 7). -/
def applyMap (m : Option (Value → Option Value)) (r : Except Error (Value × List Bool)) :
    Except Error (Value × List Bool) :=
  match m, r with
  | none, r => r
  | some mf, .ok (v, rest) =>
    match mf v with
    | some w => .ok (w, rest)
    | none => .error .mapError
  | some _, .error e => .error e

/-- Write-direction companion of `map`: the spec resolves `map` without a
paired write-back to a hook error at encode time; a failing write-back is
likewise a hook error. -/
def applyMapWrite (m mw : Option (Value → Option Value)) (v : Value) : Except Error Value :=
  match m with
  | none => .ok v
  | some _ =>
    match mw with
    | none => .error .hookError
    | some g =>
      match g v with
      | some raw => .ok raw
      | none => .error .hookError

/-- Repeat a decode step `k` times, threading the stream (spec section 4.3
step 4: a `count` field repeats the element decode count-many times). -/
def iterate (k : Nat) (step : List Bool → Except Error (Value × List Bool)) (bits : List Bool) :
    Except Error (List Value × List Bool) :=
  match k with
  | 0 => .ok ([], bits)
  | k + 1 =>
    match step bits with
    | .error e => .error e
    | .ok (v, rest) =>
      match iterate k step rest with
      | .error e => .error e
      | .ok (vs, rest2) => .ok (v :: vs, rest2)

/-- Concatenate the encodings of the elements of an in-memory sequence; the
actual element count is iterated, not the stored count field (spec
section 4.3, encode direction). -/
def encodeList (step : Value → Except Error (List Bool)) : List Value → Except Error (List Bool)
  | [] => .ok []
  | v :: vs =>
    match step v with
    | .error e => .error e
    | .ok b =>
      match encodeList step vs with
      | .error e => .error e
      | .ok bs => .ok (b ++ bs)

/-- Encode one element on the write path: apply the write-direction
companion of `map` (when a `map` is declared), then the underlying
encoder. -/
def encodeElem (m mw : Option (Value → Option Value))
    (enc : Value → Except Error (List Bool)) (x : Value) : Except Error (List Bool) :=
  match applyMapWrite m mw x with
  | .error e => .error e
  | .ok raw => enc raw

/-- Whether a variant's id attribute matches a discriminant (spec
section 4.5: `id` matches on equality, `id_pat` when the predicate holds,
the catch-all unconditionally). -/
def variantMatches (im : IdMatch) (disc : Nat) : Bool :=
  match im with
  | .idExpr n => disc == n
  | .idPat p => p disc
  | .catchAll => true

/-- Stream position a matched variant's fields decode from: after the
discriminant for an `id` variant; for `id_pat` and catch-all variants the
discriminant read is only a peek and the fields re-consume it (the
repository's `id_pat` and catch-all doctests decode their id-carrying field
from the discriminant byte itself). -/
def variantBits (im : IdMatch) (pre post : List Bool) : List Bool :=
  match im with
  | .idExpr _ => post
  | _ => pre

mutual

/-- Modelled from the spec: decode of one value of a declared type — a
scalar via the Scalar Codec, or a recursion into a nested schema forwarding
the evaluated context (spec section 4.3 step 6). -/
def decodeType (t : TypeSpec) (w : Nat) (eff : Endian) (fE : Option Endian) (fS : Option Nat)
    (args : List Value) (bits : List Bool) : Except Error (Value × List Bool) :=
  match t with
  | .scalar _ =>
    match readBits w bits with
    | .error e => .error e
    | .ok (chunk, rest) => .ok (.uint (decodeScalarBits w eff chunk), rest)
  | .nestedStruct c => decodeContainer c args fE fS bits
  | .nestedEnum en => decodeEnum en args fE fS bits

/-- Modelled from the spec: the Field Evaluator's per-field decode protocol
(spec section 4.3): `skip` first, then a false `cond` (both consume zero
bits and take the default), then endian/size resolution, then either a
single element or a `count`-driven sequence, with `map` applied to each
read element. -/
def decodeField (f : FieldSpec) (scope : Scope) (topE : Option Endian) (ctxSz : Option Nat)
    (bits : List Bool) : Except Error (Value × List Bool) :=
  match f with
  | .mk _ size endian skp cond dflt count mapF _ ctxArgs _ ty =>
    if skp then .ok (evalDefault dflt scope, bits)
    else if condFalse cond scope then .ok (evalDefault dflt scope, bits)
    else
      match count with
      | none =>
        applyMap mapF (decodeType ty (resolveWidth size (naturalWidth ty) ctxSz)
          (effEndian endian topE) (fwdEndian endian topE) (fwdSize size ctxSz)
          (ctxArgs.map fun g => g scope) bits)
      | some ce =>
        if ce scope < 0 then .error .invalidCount
        else
          match iterate (ce scope).toNat
              (fun b => applyMap mapF (decodeType ty (resolveWidth size (naturalWidth ty) ctxSz)
                (effEndian endian topE) (fwdEndian endian topE) (fwdSize size ctxSz)
                (ctxArgs.map fun g => g scope) b)) bits with
          | .error e => .error e
          | .ok (vs, rest) => .ok (.seq vs, rest)

/-- Modelled from the spec: the Container Codec's decode loop (spec
section 4.4) — fields in declaration order, each decoded value appended to
the scope seen by later fields, first failure propagated. -/
def decodeFields (fs : List FieldSpec) (scope : Scope) (topE : Option Endian) (ctxSz : Option Nat)
    (bits : List Bool) : Except Error (List (String × Value) × List Bool) :=
  match fs with
  | [] => .ok ([], bits)
  | f :: rest =>
    match decodeField f scope topE ctxSz bits with
    | .error e => .error e
    | .ok (v, bits2) =>
      match decodeFields rest (scope ++ [(fieldName f, v)]) topE ctxSz bits2 with
      | .error e => .error e
      | .ok (entries, bits3) => .ok ((fieldName f, v) :: entries, bits3)

/-- Modelled from the spec: container decode entry point; with no
caller-supplied context the `ctx_default` values populate the declared
parameters (spec section 4.4). -/
def decodeContainer (c : ContainerSpec) (args : List Value) (ctxE : Option Endian)
    (ctxSz : Option Nat) (bits : List Bool) : Except Error (Value × List Bool) :=
  match c with
  | .mk topE params dflts fields =>
    match decodeFields fields (List.zip params (if args.isEmpty then dflts else args))
        (resolveTop topE ctxE) ctxSz bits with
    | .error e => .error e
    | .ok (entries, rest) => .ok (.record entries, rest)

/-- Modelled from the spec: the Enum Dispatcher's decode (spec section 4.5).
With the external-id override the discriminant is computed from the scope
and no bits are consumed; otherwise it is read through the Scalar Codec. -/
def decodeEnum (en : EnumSpec) (args : List Value) (ctxE : Option Endian) (ctxSz : Option Nat)
    (bits : List Bool) : Except Error (Value × List Bool) :=
  match en with
  | .mk topE params dflts idW extId variants =>
    let scope := List.zip params (if args.isEmpty then dflts else args)
    match extId with
    | some ide =>
      decodeVariants variants 0 (ide scope) scope (resolveTop topE ctxE) ctxSz bits bits
    | none =>
      match readBits idW bits with
      | .error e => .error e
      | .ok (chunk, rest) =>
        decodeVariants variants 0
          (decodeScalarBits idW (effEndian none (resolveTop topE ctxE)) chunk)
          scope (resolveTop topE ctxE) ctxSz bits rest

/-- Modelled from the spec: walk the variant list in declaration order,
first match wins, no match at the end of the list is `UnknownVariant`
(spec section 4.5). -/
def decodeVariants (vs : List VariantSpec) (idx : Nat) (disc : Nat) (scope : Scope)
    (tE : Option Endian) (ctxSz : Option Nat) (preBits postBits : List Bool) :
    Except Error (Value × List Bool) :=
  match vs with
  | [] => .error (.unknownVariant disc)
  | .mk im fields :: rest =>
    if variantMatches im disc then
      match decodeFields fields scope tE ctxSz (variantBits im preBits postBits) with
      | .error e => .error e
      | .ok (entries, r) => .ok (.variantVal idx entries, r)
    else
      decodeVariants rest (idx + 1) disc scope tE ctxSz preBits postBits

end

mutual

/-- Modelled from the spec: encode of one value of a declared type,
mirroring `decodeType`. -/
def encodeType (t : TypeSpec) (w : Nat) (eff : Endian) (fE : Option Endian) (fS : Option Nat)
    (args : List Value) (v : Value) : Except Error (List Bool) :=
  match t with
  | .scalar _ =>
    match v with
    | .uint n => encodeScalar n w eff
    | _ => .error .typeMismatch
  | .nestedStruct c => encodeContainer c args fE fS v
  | .nestedEnum en => encodeEnum en args fE fS v

/-- Modelled from the spec and the repository's doctests: the per-field
encode protocol.  A `skip` field emits nothing; otherwise the in-memory
value is written — a value holding the absent representation emits nothing,
and the `cond` attribute is not consulted on the write path (the `cond`
doctest encodes a field whose condition is false: its defaulted value is
present in the output).  A `count` field iterates the actual in-memory
element count. -/
def encodeField (f : FieldSpec) (scope : Scope) (topE : Option Endian) (ctxSz : Option Nat)
    (v : Value) : Except Error (List Bool) :=
  match f with
  | .mk _ size endian skp _cond _dflt count mapF mapW ctxArgs _ ty =>
    if skp then .ok []
    else if isAbsent v then .ok []
    else
        match count with
        | none =>
          encodeElem mapF mapW
            (fun raw => encodeType ty (resolveWidth size (naturalWidth ty) ctxSz)
              (effEndian endian topE) (fwdEndian endian topE) (fwdSize size ctxSz)
              (ctxArgs.map fun g => g scope) raw) v
        | some _ =>
          match v with
          | .seq vs =>
            encodeList (encodeElem mapF mapW
              (fun raw => encodeType ty (resolveWidth size (naturalWidth ty) ctxSz)
                (effEndian endian topE) (fwdEndian endian topE) (fwdSize size ctxSz)
                (ctxArgs.map fun g => g scope) raw)) vs
          | _ => .error .typeMismatch

/-- Modelled from the spec: the Container Codec's encode loop — same field
order, same accumulating scope, built from the in-memory field values (spec
section 4.4). -/
def encodeFields (fs : List FieldSpec) (scope : Scope) (topE : Option Endian) (ctxSz : Option Nat)
    (entries : List (String × Value)) : Except Error (List Bool) :=
  match fs, entries with
  | [], [] => .ok []
  | f :: fs2, (n, v) :: rest =>
    if fieldName f = n then
      match encodeField f scope topE ctxSz v with
      | .error e => .error e
      | .ok b =>
        match encodeFields fs2 (scope ++ [(n, v)]) topE ctxSz rest with
        | .error e => .error e
        | .ok bs => .ok (b ++ bs)
    else .error .typeMismatch
  | _, _ => .error .typeMismatch

/-- Modelled from the spec: container encode entry point. -/
def encodeContainer (c : ContainerSpec) (args : List Value) (ctxE : Option Endian)
    (ctxSz : Option Nat) (v : Value) : Except Error (List Bool) :=
  match c with
  | .mk topE params dflts fields =>
    match v with
    | .record entries =>
      encodeFields fields (List.zip params (if args.isEmpty then dflts else args))
        (resolveTop topE ctxE) ctxSz entries
    | _ => .error .typeMismatch

/-- Modelled from the spec: the Enum Dispatcher's encode — the active
variant is determined from the in-memory tagged value; with the external-id
override no discriminant bits are emitted (spec section 4.5). -/
def encodeEnum (en : EnumSpec) (args : List Value) (ctxE : Option Endian) (ctxSz : Option Nat)
    (v : Value) : Except Error (List Bool) :=
  match en with
  | .mk topE params dflts idW extId variants =>
    match v with
    | .variantVal j entries =>
      encodeVariants variants j idW extId.isSome (resolveTop topE ctxE) ctxSz
        (List.zip params (if args.isEmpty then dflts else args)) entries
    | _ => .error .typeMismatch

/-- Modelled from the spec: encode of the `j`-th variant.  An `id` variant
writes its literal discriminant (unless the external-id override is active);
`id_pat` and catch-all variants write no separate discriminant — the value
round-trips through whichever of their own fields stores it. -/
def encodeVariants (vs : List VariantSpec) (j : Nat) (idW : Nat) (ext : Bool)
    (tE : Option Endian) (ctxSz : Option Nat) (scope : Scope)
    (entries : List (String × Value)) : Except Error (List Bool) :=
  match vs, j with
  | [], _ => .error .typeMismatch
  | .mk im fields :: _, 0 =>
    match encodeFields fields scope tE ctxSz entries with
    | .error e => .error e
    | .ok fb =>
      if ext then .ok fb
      else
        match im with
        | .idExpr n =>
          match encodeScalar n idW (effEndian none tE) with
          | .error e => .error e
          | .ok db => .ok (db ++ fb)
        | _ => .ok fb
  | _ :: rest, j + 1 => encodeVariants rest j idW ext tE ctxSz scope entries

end

/-- Modelled from the spec: the assignment phase of the Update Engine — walk
the field list and the record entries in step; a field carrying an
`update` expression has its entry replaced by the expression's value over
the current state of the whole record (earlier assignments of the same pass
included), spec section 4.6. -/
def updateAssign (fs : List FieldSpec) (done : List (String × Value))
    (todo : List (String × Value)) : List (String × Value) :=
  match fs, todo with
  | f :: fs2, (n, v) :: todo2 =>
    (match fieldUpdate f with
     | some e => updateAssign fs2 (done ++ [(n, e (done ++ (n, v) :: todo2))]) todo2
     | none => updateAssign fs2 (done ++ [(n, v)]) todo2)
  | _, rest => done ++ rest

mutual

/-- Modelled from the spec: the recursion of the Update Engine into one
field's value — elementwise into sequences, and into nested schema values
(inner-to-outer, spec section 4.6). -/
def updateWithTy (t : TypeSpec) (v : Value) : Value :=
  match t, v with
  | t, .seq vs => .seq (updateSeqGo t vs)
  | .nestedStruct c, v => updateContainer c v
  | .nestedEnum en, v => updateEnum en v
  | _, v => v
termination_by (sizeOf t, sizeOf v)

def updateSeqGo (t : TypeSpec) (vs : List Value) : List Value :=
  match vs with
  | [] => []
  | x :: xs => updateWithTy t x :: updateSeqGo t xs
termination_by (sizeOf t, sizeOf vs)

/-- Modelled from the spec: the inner pass of the Update Engine over a
record's entries — recurse into each field's value first. -/
def updateFieldsInner (fs : List FieldSpec) (entries : List (String × Value)) :
    List (String × Value) :=
  match fs, entries with
  | .mk _ _ _ _ _ _ _ _ _ _ _ t :: fs2, (n, v) :: rest =>
    (n, updateWithTy t v) :: updateFieldsInner fs2 rest
  | _, rest => rest
termination_by (sizeOf fs, sizeOf entries)

/-- Modelled from the spec: the Update Engine on a container value — recurse
into nested values first, then run the assignment phase over the fields
carrying an `update` expression.  The pass never touches the bit stream
(it has no stream argument). -/
def updateContainer (c : ContainerSpec) (v : Value) : Value :=
  match c, v with
  | .mk _ _ _ fields, .record entries =>
    .record (updateAssign fields [] (updateFieldsInner fields entries))
  | _, v => v
termination_by (sizeOf c, sizeOf v)

/-- Modelled from the spec: the Update Engine on an enum value — update the
fields of the active variant. -/
def updateEnum (en : EnumSpec) (v : Value) : Value :=
  match en, v with
  | .mk _ _ _ _ _ variants, .variantVal j entries =>
    .variantVal j (updateVariantsGo variants j entries)
  | _, v => v
termination_by (sizeOf en, sizeOf v)

def updateVariantsGo (vs : List VariantSpec) (j : Nat) (entries : List (String × Value)) :
    List (String × Value) :=
  match vs, j with
  | .mk _ fields :: _, 0 => updateAssign fields [] (updateFieldsInner fields entries)
  | _ :: rest, j + 1 => updateVariantsGo rest j entries
  | [], _ => entries
termination_by (sizeOf vs, sizeOf entries)

end

/-- MSB-first bit image of a byte list (each byte contributes its low 8 bits,
most significant first), the byte/bit interface of spec section 4.1. -/
def bitsOfBytes : List Nat → List Bool
  | [] => []
  | b :: bs => natToBits 8 b ++ bitsOfBytes bs

/-- A plain scalar field with a size attribute and an optional endian
attribute and no other attributes. -/
def scalarField (n : String) (sz : SizeSpec) (e : Option Endian) (w : Nat) : FieldSpec :=
  .mk n sz e false none none none none none [] none (.scalar w)

/-- A plain `u8` field. -/
def u8F (n : String) : FieldSpec := scalarField n .natural none 8

/-- A plain `u16` field with an optional endian attribute. -/
def u16F (n : String) (e : Option Endian) : FieldSpec := scalarField n .natural e 16

/-- Does an optional scope entry hold the scalar `k`?  (The shape the
doctests' `cond` expressions take, e.g. `*field_a == 0x01`.) -/
def isU8 (o : Option Value) (k : Nat) : Bool :=
  match o with
  | some (.uint n) => n == k
  | _ => false

/-- The `bits` doctest schema (attributes.rs lines 114–138): a 2-bit field
followed by a 6-bit field. -/
def bitsSchema : ContainerSpec :=
  .mk .unspecified [] [] [scalarField "field_a" (.bitsAttr 2) none 8,
    scalarField "field_b" (.bitsAttr 6) none 8]

/-- The `bytes` doctest schema (attributes.rs lines 150–171): a `u32` field
limited to 2 bytes, then a `u8`. -/
def bytesSchema : ContainerSpec :=
  .mk .unspecified [] [] [scalarField "field_a" (.bytesAttr 2) none 32, u8F "field_b"]

/-- The `endian`-ctx doctest child (attributes.rs lines 69–73): top-level
endian taken from the caller's context. -/
def childSpec : ContainerSpec := .mk .fromCtx [] [] [u16F "field_a" none]

/-- The `endian`-ctx doctest parent (attributes.rs lines 75–85): top-level
little-endian, a big-endian field override, a defaulted field, and a nested
`Child`. -/
def ctxSchema : ContainerSpec :=
  .mk (.fixed .little) [] []
    [u16F "field_be" (some .big), u16F "field_default" none,
     .mk "field_child" .natural none false none none none none none [] none
       (.nestedStruct childSpec)]

/-- A nested child whose single field takes its bit width from the caller's
context (the `ctx` section's `BitSize` forwarding, attributes.rs
lines 484–501). -/
def sizeChild : ContainerSpec :=
  .mk .unspecified [] [] [scalarField "x" .fromCtx none 8]

/-- A parent with a `bits = k` attribute on a nested child field; the width
is implicitly forwarded into the child's context. -/
def sizeParent (k : Nat) : ContainerSpec :=
  .mk .unspecified [] []
    [.mk "child" (.bitsAttr k) none false none none none none none [] none
      (.nestedStruct sizeChild)]

/-- A parent container whose top-level endian is `ep` and whose single
field is a nested `Child` that takes its endianness from the context. -/
def ctxParent (ep : Endian) : ContainerSpec :=
  .mk (.fixed ep) [] []
    [.mk "field_child" .natural none false none none none none none [] none
      (.nestedStruct childSpec)]

/-- The condition of the doctest's `field_b`: `*field_a == 0x01`
(attributes.rs line 293). -/
def condA : Scope → Bool := fun s => isU8 (Scope.get s "field_a") 1

/-- The condition of the doctest's `field_c`: `*field_b == Some(0xFF)`
(attributes.rs line 295). -/
def condC : Scope → Bool := fun s => isU8 (Scope.get s "field_b") 0xFF

/-- The doctest's `field_d` (attributes.rs line 297): marked `skip`, with a
`cond` and default `Some(0x06)`. -/
def fieldD : FieldSpec :=
  .mk "field_d" .natural none true (some condA) (some fun _ => .uint 6) none none none []
    none (.scalar 8)

/-- The `cond` doctest schema (attributes.rs lines 290–299): `field_a: u8`,
`field_b` guarded by `condA`, `field_c` guarded by `condC` with default
`Some(0x05)`, and `field_d` marked `skip` with `condA` and default
`Some(0x06)`. -/
def condSchema : ContainerSpec :=
  .mk .unspecified [] []
    [u8F "field_a",
     .mk "field_b" .natural none false (some condA) none none none none [] none (.scalar 8),
     .mk "field_c" .natural none false (some condC) (some fun _ => .uint 5) none none none []
       none (.scalar 8),
     fieldD]

/-- The `cond` doctest schema without its `skip` field: only plain fields
and conditional fields with a `default`; no `skip` and no `map` anywhere. -/
def condSchema3 : ContainerSpec :=
  .mk .unspecified [] []
    [u8F "field_a",
     .mk "field_b" .natural none false (some condA) none none none none [] none (.scalar 8),
     .mk "field_c" .natural none false (some condC) (some fun _ => .uint 5) none none none []
       none (.scalar 8)]

/-- The `update` expression of the count doctest: `self.items.len()`
(attributes.rs line 217). -/
def updCount : Scope → Value := fun s =>
  .uint (match Scope.get s "items" with
         | some (.seq vs) => vs.length
         | _ => 0)

/-- The `count` expression of the count doctest: the already-decoded value
of the `count` field (attributes.rs line 219). -/
def countOf : Scope → Int := fun s =>
  match Scope.get s "count" with
  | some (.uint n) => (n : Int)
  | _ => 0

/-- The `count`/`update` doctest schema (attributes.rs lines 215–221):
`count: u8` with `update = "self.items.len()"`, then `items: Vec<u8>` with
`count = "count"`. -/
def countSchema : ContainerSpec :=
  .mk .unspecified [] []
    [.mk "count" .natural none false none none none none none [] (some updCount) (.scalar 8),
     .mk "items" .natural none false none none (some countOf) none none [] none (.scalar 8)]

/-- A legal-but-self-referential update expression, `self.count + 1`. -/
def selfInc : Scope → Value := fun s =>
  .uint (match Scope.get s "count" with
         | some (.uint n) => n + 1
         | _ => 0)

/-- A schema whose single field's update expression reads the field it
updates (`count = self.count + 1`). -/
def incSchema : ContainerSpec :=
  .mk .unspecified [] []
    [.mk "count" .natural none false none none none none none [] (some selfInc) (.scalar 8)]

/-- The enum-variant `id` doctest schema (attributes.rs lines 597–608):
`type = "u8"`, `VariantA(u8)` with id 1, `VariantB(u8, u16)` with id 2, and
a catch-all storing the discriminant in its own `type_` field. -/
def enumSchema : EnumSpec :=
  .mk .unspecified [] [] 8 none
    [.mk (.idExpr 1) [u8F "0"],
     .mk (.idExpr 2) [u8F "0", u16F "1" none],
     .mk .catchAll [u8F "type_"]]

/-- The external-id expression of the top-level `id` doctest: the caller's
`my_id` context value (attributes.rs line 562). -/
def myIdExpr : Scope → Nat := fun s =>
  match Scope.get s "my_id" with
  | some (.uint n) => n
  | _ => 0

/-- The top-level `id` doctest enum (attributes.rs lines 561–568):
`ctx = "my_id: u8", id = "my_id"`, with `VariantA(u8)` (id 1) and
`VariantB` (id 2). -/
def myEnum : EnumSpec :=
  .mk .unspecified ["my_id"] [] 8 (some myIdExpr)
    [.mk (.idExpr 1) [u8F "0"], .mk (.idExpr 2) []]

/-- The top-level `id` doctest container (attributes.rs lines 553–559):
`my_id: u8`, `data: u8`, and `enum_from_id: MyEnum` receiving `*my_id` as
context. -/
def idSchema : ContainerSpec :=
  .mk .unspecified [] []
    [u8F "my_id", u8F "data",
     .mk "enum_from_id" .natural none false none none none none none
       [fun s => (Scope.get s "my_id").getD .absent] none (.nestedEnum myEnum)]

mutual

/-- The syntactic hypothesis class named by the round-trip property as the
spec states it: no field anywhere in the schema uses `skip` and no field
uses a `map`. -/
def noSkipNoMapT : TypeSpec → Prop
  | .scalar _ => True
  | .nestedStruct c => noSkipNoMapC c
  | .nestedEnum en => noSkipNoMapE en

def noSkipNoMapF : FieldSpec → Prop
  | .mk _ _ _ skp _ _ _ mapF _ _ _ ty => skp = false ∧ mapF = none ∧ noSkipNoMapT ty

def noSkipNoMapFs : List FieldSpec → Prop
  | [] => True
  | f :: rest => noSkipNoMapF f ∧ noSkipNoMapFs rest

def noSkipNoMapC : ContainerSpec → Prop
  | .mk _ _ _ fields => noSkipNoMapFs fields

def noSkipNoMapE : EnumSpec → Prop
  | .mk _ _ _ _ _ variants => noSkipNoMapVs variants

def noSkipNoMapVs : List VariantSpec → Prop
  | [] => True
  | .mk _ fields :: rest => noSkipNoMapFs fields ∧ noSkipNoMapVs rest

end

mutual

/-- The hypothesis class under which decode-then-encode round-trips: no
field uses `skip`; every `map` is reversible — it carries a paired
write-back that inverts it and never produces the absent representation —
and every field with a `cond` has no `default` (so a false condition yields
the absent representation, which encodes to nothing). -/
def goodT : TypeSpec → Prop
  | .scalar _ => True
  | .nestedStruct c => goodC c
  | .nestedEnum en => goodE en

def goodF : FieldSpec → Prop
  | .mk _ _ _ skp cond dflt _ mapF mapW _ _ ty =>
    skp = false ∧ (cond.isSome → dflt = none) ∧
    (∀ m, mapF = some m → ∃ g, mapW = some g ∧
      ∀ x y, m x = some y → g y = some x ∧ y ≠ .absent) ∧
    goodT ty

def goodFs : List FieldSpec → Prop
  | [] => True
  | f :: rest => goodF f ∧ goodFs rest

def goodC : ContainerSpec → Prop
  | .mk _ _ _ fields => goodFs fields

def goodE : EnumSpec → Prop
  | .mk _ _ _ _ _ variants => goodVs variants

def goodVs : List VariantSpec → Prop
  | [] => True
  | .mk _ fields :: rest => goodFs fields ∧ goodVs rest

end

/-- The names of the fields of a schema that carry no `update` expression
(the fields the Update Engine leaves alone). -/
def freeNames : List FieldSpec → List String
  | [] => []
  | f :: rest =>
    match fieldUpdate f with
    | none => fieldName f :: freeNames rest
    | some _ => freeNames rest

/-- Every `update` expression of the field list depends only on the scope
entries named by `freeN` (two scopes agreeing there get equal values). -/
def exprsOkFor (freeN : List String) : List FieldSpec → Prop
  | [] => True
  | f :: fs =>
    (∀ e, fieldUpdate f = some e → ∀ s1 s2,
      (∀ n, n ∈ freeN → Scope.get s1 n = Scope.get s2 n) → e s1 = e s2) ∧
    exprsOkFor freeN fs

/-- No update-carrying field of the list shares a name with `freeN` (holds
whenever field names are distinct and `freeN` is the update-free names). -/
def notFreeFor (freeN : List String) : List FieldSpec → Prop
  | [] => True
  | f :: fs => ((fieldUpdate f).isSome → fieldName f ∉ freeN) ∧ notFreeFor freeN fs

/-- The entry names of a record value agree with the schema's field names
on their common prefix. -/
def namesAligned : List FieldSpec → List (String × Value) → Prop
  | f :: fs, (n, _) :: t => n = fieldName f ∧ namesAligned fs t
  | _, _ => True

/-- Two entry lists agree on names everywhere and on values at every
update-free field position; beyond the schema's fields (or past the end of
either list) they are equal. -/
def freeSame : List FieldSpec → List (String × Value) → List (String × Value) → Prop
  | f :: fs, (n1, v1) :: t1, (n2, v2) :: t2 =>
    n1 = n2 ∧ (fieldUpdate f = none → v1 = v2) ∧ freeSame fs t1 t2
  | _, t1, t2 => t1 = t2

mutual

/-- Schemas whose update expressions depend only on update-free fields and
whose update-carrying fields do not shadow an update-free name (recursively
through nested schemas). -/
def updOkT : TypeSpec → Prop
  | .scalar _ => True
  | .nestedStruct c => updOkC c
  | .nestedEnum en => updOkE en

def updOkFs : List FieldSpec → Prop
  | [] => True
  | .mk _ _ _ _ _ _ _ _ _ _ _ t :: rest => updOkT t ∧ updOkFs rest

def updOkC : ContainerSpec → Prop
  | .mk _ _ _ fields =>
    exprsOkFor (freeNames fields) fields ∧ notFreeFor (freeNames fields) fields ∧
    updOkFs fields

def updOkE : EnumSpec → Prop
  | .mk _ _ _ _ _ variants => updOkVs variants

def updOkVs : List VariantSpec → Prop
  | [] => True
  | .mk _ fields :: rest =>
    exprsOkFor (freeNames fields) fields ∧ notFreeFor (freeNames fields) fields ∧
    updOkFs fields ∧ updOkVs rest

end

mutual

/-- A value structurally fits its schema far enough for the Update Engine:
record entry names align with the field names, and the values of
update-free fields recursively fit (values of update-carrying fields are
overwritten by the assignment phase and need not fit). -/
def alignedT : TypeSpec → Value → Prop
  | t, .seq vs => alignedSeq t vs
  | .nestedStruct c, v => alignedC c v
  | .nestedEnum en, v => alignedE en v
  | _, _ => True
termination_by t v => (sizeOf t, sizeOf v)

def alignedSeq : TypeSpec → List Value → Prop
  | _, [] => True
  | t, x :: xs => alignedT t x ∧ alignedSeq t xs
termination_by t vs => (sizeOf t, sizeOf vs)

def alignedC : ContainerSpec → Value → Prop
  | .mk _ _ _ fields, .record entries => namesAligned fields entries ∧ alignedFs fields entries
  | _, _ => True
termination_by c v => (sizeOf c, sizeOf v)

def alignedFs : List FieldSpec → List (String × Value) → Prop
  | .mk _ _ _ _ _ _ _ _ _ _ u t :: fs, (_, v) :: rest =>
    (u = none → alignedT t v) ∧ alignedFs fs rest
  | _, _ => True
termination_by fs entries => (sizeOf fs, sizeOf entries)

def alignedE : EnumSpec → Value → Prop
  | .mk _ _ _ _ _ variants, .variantVal j entries => alignedVs variants j entries
  | _, _ => True
termination_by en v => (sizeOf en, sizeOf v)

def alignedVs : List VariantSpec → Nat → List (String × Value) → Prop
  | .mk _ fields :: _, 0, entries => namesAligned fields entries ∧ alignedFs fields entries
  | _ :: rest, j + 1, entries => alignedVs rest j entries
  | [], _, _ => True
termination_by vs _ entries => (sizeOf vs, sizeOf entries)

end

theorem natToBits_length (w v : Nat) : (natToBits w v).length = w := by
  induction w generalizing v with
  | zero => rfl
  | succ w ih => simp [natToBits, ih]

theorem bitsToNat_lt (l : List Bool) : bitsToNat l < 2 ^ l.length := by
  induction l with
  | nil => simp [bitsToNat]
  | cons b bs ih =>
    have h2 : (2 : Nat) ^ (b :: bs).length = 2 * 2 ^ bs.length := by
      rw [List.length_cons, pow_succ]; ring
    cases b <;> simp [bitsToNat] <;> omega

theorem natToBits_mod (w v : Nat) : natToBits w (v % 2 ^ w) = natToBits w v := by
  induction w generalizing v with
  | zero => rfl
  | succ w ih =>
    have hdvd : (2 : Nat) ^ w ∣ 2 ^ (w + 1) := pow_dvd_pow 2 (Nat.le_succ w)
    have hhead : v % 2 ^ (w + 1) / 2 ^ w % 2 = v / 2 ^ w % 2 := by
      rw [pow_succ, Nat.mod_mul_right_div_self]
      omega
    have htail : natToBits w (v % 2 ^ (w + 1)) = natToBits w v := by
      rw [← ih (v % 2 ^ (w + 1)), Nat.mod_mod_of_dvd _ hdvd, ih]
    simp [natToBits, hhead, htail]

theorem natToBits_bitsToNat (l : List Bool) : natToBits l.length (bitsToNat l) = l := by
  induction l with
  | nil => rfl
  | cons b bs ih =>
    have hlt := bitsToNat_lt bs
    have hdiv : ((if b then 2 ^ bs.length else 0) + bitsToNat bs) / 2 ^ bs.length =
        if b then 1 else 0 := by
      cases b
      · simpa using Nat.div_eq_of_lt hlt
      · simp only [if_true]
        rw [Nat.add_div_left _ (Nat.pos_pow_of_pos _ (by norm_num))]
        simp [Nat.div_eq_of_lt hlt]
    have hmod : ((if b then 2 ^ bs.length else 0) + bitsToNat bs) % 2 ^ bs.length =
        bitsToNat bs := by
      cases b
      · simpa using Nat.mod_eq_of_lt hlt
      · simp only [if_true]
        rw [Nat.add_mod_left]
        exact Nat.mod_eq_of_lt hlt
    simp only [List.length_cons, natToBits, bitsToNat]
    have h1 : decide (((if b then 2 ^ bs.length else 0) + bitsToNat bs) / 2 ^ bs.length % 2 = 1)
        = b := by
      cases b <;> simp [hdiv, Nat.div_eq_of_lt hlt]
    have h2 : natToBits bs.length ((if b then 2 ^ bs.length else 0) + bitsToNat bs) = bs := by
      rw [← natToBits_mod, hmod, ih]
    rw [h1, h2]

theorem leNatOfBits_lt : ∀ l : List Bool, leNatOfBits l < 2 ^ l.length
  | [] => by simp [leNatOfBits, bitsToNat]
  | [b0] => by simpa [leNatOfBits] using bitsToNat_lt [b0]
  | [b0, b1] => by simpa [leNatOfBits] using bitsToNat_lt [b0, b1]
  | [b0, b1, b2] => by simpa [leNatOfBits] using bitsToNat_lt [b0, b1, b2]
  | [b0, b1, b2, b3] => by simpa [leNatOfBits] using bitsToNat_lt [b0, b1, b2, b3]
  | [b0, b1, b2, b3, b4] => by simpa [leNatOfBits] using bitsToNat_lt [b0, b1, b2, b3, b4]
  | [b0, b1, b2, b3, b4, b5] => by
      simpa [leNatOfBits] using bitsToNat_lt [b0, b1, b2, b3, b4, b5]
  | [b0, b1, b2, b3, b4, b5, b6] => by
      simpa [leNatOfBits] using bitsToNat_lt [b0, b1, b2, b3, b4, b5, b6]
  | b0 :: b1 :: b2 :: b3 :: b4 :: b5 :: b6 :: b7 :: rest => by
      have hA : bitsToNat [b0, b1, b2, b3, b4, b5, b6, b7] < 256 := by
        simpa using bitsToNat_lt [b0, b1, b2, b3, b4, b5, b6, b7]
      have hB := leNatOfBits_lt rest
      have hp : (2 : Nat) ^ (b0 :: b1 :: b2 :: b3 :: b4 :: b5 :: b6 :: b7 :: rest).length =
          2 ^ rest.length * 256 := by
        simp only [List.length_cons]
        rw [show rest.length + 1 + 1 + 1 + 1 + 1 + 1 + 1 + 1 = rest.length + 8 by omega,
          pow_add]
        norm_num
      simp only [leNatOfBits]
      omega

theorem leBitsOfNat_leNatOfBits : ∀ l : List Bool, l.length % 8 = 0 →
    leBitsOfNat l.length (leNatOfBits l) = l
  | [], _ => by simp [leNatOfBits, leBitsOfNat, bitsToNat]
  | [_], h => by simp at h
  | [_, _], h => by simp at h
  | [_, _, _], h => by simp at h
  | [_, _, _, _], h => by simp at h
  | [_, _, _, _, _], h => by simp at h
  | [_, _, _, _, _, _], h => by simp at h
  | [_, _, _, _, _, _, _], h => by simp at h
  | b0 :: b1 :: b2 :: b3 :: b4 :: b5 :: b6 :: b7 :: rest, h => by
      have hrest : rest.length % 8 = 0 := by
        simp only [List.length_cons] at h; omega
      have ih := leBitsOfNat_leNatOfBits rest hrest
      have hA : bitsToNat [b0, b1, b2, b3, b4, b5, b6, b7] < 256 := by
        simpa using bitsToNat_lt [b0, b1, b2, b3, b4, b5, b6, b7]
      have hdiv : (bitsToNat [b0, b1, b2, b3, b4, b5, b6, b7] + 256 * leNatOfBits rest) / 256 =
          leNatOfBits rest := by
        rw [Nat.add_mul_div_left _ _ (by norm_num : (0 : Nat) < 256)]
        simp [Nat.div_eq_of_lt hA]
      have hmod : (bitsToNat [b0, b1, b2, b3, b4, b5, b6, b7] + 256 * leNatOfBits rest) %
          2 ^ 8 = bitsToNat [b0, b1, b2, b3, b4, b5, b6, b7] := by
        have h256 : (2 : Nat) ^ 8 = 256 := by norm_num
        rw [h256, Nat.add_mul_mod_self_left]
        exact Nat.mod_eq_of_lt hA
      have hbits : natToBits 8 (bitsToNat [b0, b1, b2, b3, b4, b5, b6, b7] +
          256 * leNatOfBits rest) = [b0, b1, b2, b3, b4, b5, b6, b7] := by
        rw [← natToBits_mod, hmod]
        exact natToBits_bitsToNat [b0, b1, b2, b3, b4, b5, b6, b7]
      show leBitsOfNat (rest.length + 8) _ = _
      simp only [leNatOfBits, leBitsOfNat, hdiv, hbits, ih]
      rfl

theorem leNatOfBits_length_eight (b0 b1 b2 b3 b4 b5 b6 b7 : Bool) (rest : List Bool) :
    leNatOfBits (b0 :: b1 :: b2 :: b3 :: b4 :: b5 :: b6 :: b7 :: rest) =
      bitsToNat [b0, b1, b2, b3, b4, b5, b6, b7] + 256 * leNatOfBits rest := rfl

theorem decodeScalarBits_lt (w : Nat) (e : Endian) (l : List Bool) (h : l.length = w) :
    decodeScalarBits w e l < 2 ^ w := by
  subst h
  unfold decodeScalarBits
  split
  · exact leNatOfBits_lt l
  · exact bitsToNat_lt l

theorem encodeScalarBits_decodeScalarBits (w : Nat) (e : Endian) (l : List Bool)
    (h : l.length = w) : encodeScalarBits (decodeScalarBits w e l) w e = l := by
  subst h
  unfold decodeScalarBits encodeScalarBits
  split
  case isTrue hc => exact leBitsOfNat_leNatOfBits l hc.2
  case isFalse hc => exact natToBits_bitsToNat l

theorem encodeScalar_decodeScalarBits (w : Nat) (e : Endian) (l : List Bool)
    (h : l.length = w) : encodeScalar (decodeScalarBits w e l) w e = .ok l := by
  unfold encodeScalar
  rw [if_pos (decodeScalarBits_lt w e l h), encodeScalarBits_decodeScalarBits w e l h]

theorem readBits_ok {n : Nat} {bits c r : List Bool} (h : readBits n bits = .ok (c, r)) :
    n ≤ bits.length ∧ c = bits.take n ∧ r = bits.drop n := by
  unfold readBits at h
  split at h
  · simp_all
  · simp_all

theorem length_take_of_le {n : Nat} {bits : List Bool} (h : n ≤ bits.length) :
    (bits.take n).length = n := by
  simp [List.length_take, Nat.min_eq_left h]

theorem decodeVariants_shape : ∀ (vs : List VariantSpec) (idx disc : Nat) (scope : Scope)
    (tE : Option Endian) (sz : Option Nat) (pre post : List Bool) (v : Value) (r : List Bool),
    decodeVariants vs idx disc scope tE sz pre post = .ok (v, r) →
    ∃ j entries, v = .variantVal j entries ∧ idx ≤ j := by
  intro vs
  induction vs with
  | nil => intro idx disc scope tE sz pre post v r h; simp [decodeVariants] at h
  | cons hd tl ih =>
    intro idx disc scope tE sz pre post v r h
    cases hd with
    | mk im fields =>
      unfold decodeVariants at h
      split at h
      · split at h
        · exact absurd h (by simp)
        · next entries bits3 heq =>
            simp only [Except.ok.injEq, Prod.mk.injEq] at h
            exact ⟨idx, entries, h.1.symm, le_refl idx⟩
      · obtain ⟨j, entries, hv, hj⟩ := ih (idx + 1) disc scope tE sz pre post v r h
        exact ⟨j, entries, hv, by omega⟩

theorem decodeContainer_shape {c : ContainerSpec} {args : List Value} {ctxE : Option Endian}
    {sz : Option Nat} {bits : List Bool} {v : Value} {r : List Bool}
    (h : decodeContainer c args ctxE sz bits = .ok (v, r)) :
    ∃ entries, v = .record entries := by
  cases c with
  | mk topE params dflts fields =>
    unfold decodeContainer at h
    split at h
    · exact absurd h (by simp)
    · next entries bits3 heq =>
        simp only [Except.ok.injEq, Prod.mk.injEq] at h
        exact ⟨entries, h.1.symm⟩

theorem decodeEnum_shape {en : EnumSpec} {args : List Value} {ctxE : Option Endian}
    {sz : Option Nat} {bits : List Bool} {v : Value} {r : List Bool}
    (h : decodeEnum en args ctxE sz bits = .ok (v, r)) :
    ∃ j entries, v = .variantVal j entries := by
  cases en with
  | mk topE params dflts idW extId variants =>
    simp only [decodeEnum] at h
    split at h
    · obtain ⟨j, entries, hv, _⟩ := decodeVariants_shape _ _ _ _ _ _ _ _ _ _ h
      exact ⟨j, entries, hv⟩
    · split at h
      · exact absurd h (by simp)
      · obtain ⟨j, entries, hv, _⟩ := decodeVariants_shape _ _ _ _ _ _ _ _ _ _ h
        exact ⟨j, entries, hv⟩

theorem decodeType_ne_absent {t : TypeSpec} {w : Nat} {eff : Endian} {fE : Option Endian}
    {fS : Option Nat} {args : List Value} {bits : List Bool} {v : Value} {r : List Bool}
    (h : decodeType t w eff fE fS args bits = .ok (v, r)) : v ≠ .absent := by
  cases t with
  | scalar nw =>
    unfold decodeType at h
    split at h
    · exact absurd h (by simp)
    · intro hv; simp_all
  | nestedStruct c =>
    unfold decodeType at h
    obtain ⟨entries, hv⟩ := decodeContainer_shape h
    simp [hv]
  | nestedEnum en =>
    unfold decodeType at h
    obtain ⟨j, entries, hv⟩ := decodeEnum_shape h
    simp [hv]

theorem Scope.get_append (p q : Scope) (n : String) :
    Scope.get (p ++ q) n = (Scope.get p n).or (Scope.get q n) := by
  induction p with
  | nil => simp [Scope.get]
  | cons kv t ih =>
    cases kv with
    | mk k v =>
      by_cases hk : k = n
      · simp [Scope.get, hk]
      · simp [Scope.get, hk, ih]

theorem rtIterate (step : List Bool → Except Error (Value × List Bool))
    (estep : Value → Except Error (List Bool))
    (H : ∀ b v r, step b = .ok (v, r) → ∃ o, estep v = .ok o ∧ b = o ++ r) :
    ∀ (k : Nat) (bits : List Bool) (vs : List Value) (rest : List Bool),
      iterate k step bits = .ok (vs, rest) →
      ∃ out, encodeList estep vs = .ok out ∧ bits = out ++ rest := by
  intro k
  induction k with
  | zero =>
    intro bits vs rest h
    simp [iterate] at h
    exact ⟨[], by simp [encodeList, h]⟩
  | succ k ih =>
    intro bits vs rest h
    unfold iterate at h
    split at h
    · exact absurd h (by simp)
    case _ v r1 heq =>
      split at h
      · exact absurd h (by simp)
      case _ vs2 rest2 heq2 =>
        obtain ⟨hv, hr⟩ : v :: vs2 = vs ∧ rest2 = rest := by simp_all
        obtain ⟨o1, he1, hb1⟩ := H _ _ _ heq
        obtain ⟨o2, he2, hb2⟩ := ih _ _ _ heq2
        refine ⟨o1 ++ o2, ?_, ?_⟩
        · rw [← hv]
          simp [encodeList, he1, he2]
        · rw [hb1, hb2, ← hr, List.append_assoc]

theorem isAbsent_eq_false {v : Value} (h : v ≠ .absent) : isAbsent v = false := by
  cases v <;> simp_all [isAbsent]

mutual

theorem rtType (t : TypeSpec) (w : Nat) (eff : Endian) (fE : Option Endian) (fS : Option Nat)
    (args : List Value) (bits : List Bool) (v : Value) (rest : List Bool)
    (hg : goodT t) (hd : decodeType t w eff fE fS args bits = .ok (v, rest)) :
    ∃ out, encodeType t w eff fE fS args v = .ok out ∧ bits = out ++ rest := by
  cases t with
  | scalar nw =>
    unfold decodeType at hd
    split at hd
    · exact absurd hd (by simp)
    next chunk r2 heq =>
      obtain ⟨hn, hc, hr⟩ := readBits_ok heq
      simp only [Except.ok.injEq, Prod.mk.injEq] at hd
      obtain ⟨hv, hrest⟩ := hd
      refine ⟨chunk, ?_, ?_⟩
      · unfold encodeType
        rw [← hv]
        subst hc
        exact encodeScalar_decodeScalarBits w eff _ (length_take_of_le hn)
      · rw [← hrest, hc, hr]
        exact (List.take_append_drop _ _).symm
  | nestedStruct c =>
    unfold decodeType at hd
    obtain ⟨out, he, hb⟩ := rtContainer c args fE fS bits v rest (by simpa [goodT] using hg) hd
    exact ⟨out, by simpa [encodeType] using he, hb⟩
  | nestedEnum en =>
    unfold decodeType at hd
    obtain ⟨out, he, hb⟩ := rtEnum en args fE fS bits v rest (by simpa [goodT] using hg) hd
    exact ⟨out, by simpa [encodeType] using he, hb⟩

theorem rtField (f : FieldSpec) (scope : Scope) (topE : Option Endian) (ctxSz : Option Nat)
    (bits : List Bool) (v : Value) (rest : List Bool)
    (hg : goodF f) (hd : decodeField f scope topE ctxSz bits = .ok (v, rest)) :
    ∃ out, encodeField f scope topE ctxSz v = .ok out ∧ bits = out ++ rest := by
  cases f with
  | mk nm size endian skp cond dflt count mapF mapW ctxArgs upd ty =>
    simp only [goodF] at hg
    obtain ⟨hskp, hcd, hmap, hgt⟩ := hg
    subst hskp
    unfold decodeField at hd
    rw [if_neg (by simp)] at hd
    by_cases hcf : condFalse cond scope
    · rw [if_pos hcf] at hd
      have hcs : cond.isSome := by
        cases cond with
        | none => simp [condFalse] at hcf
        | some c => rfl
      have hdn : dflt = none := hcd hcs
      subst hdn
      simp only [Except.ok.injEq, Prod.mk.injEq, evalDefault] at hd
      obtain ⟨hv, hr⟩ := hd
      refine ⟨[], ?_, by rw [← hr]; rfl⟩
      unfold encodeField
      rw [if_neg (by simp), ← hv]
      simp [isAbsent]
    · rw [if_neg hcf] at hd
      have H : ∀ b vv rr,
          applyMap mapF (decodeType ty (resolveWidth size (naturalWidth ty) ctxSz)
            (effEndian endian topE) (fwdEndian endian topE) (fwdSize size ctxSz)
            (List.map (fun g => g scope) ctxArgs) b) = .ok (vv, rr) →
          vv ≠ .absent ∧
          ∃ o, encodeElem mapF mapW
            (fun raw => encodeType ty (resolveWidth size (naturalWidth ty) ctxSz)
              (effEndian endian topE) (fwdEndian endian topE) (fwdSize size ctxSz)
              (List.map (fun g => g scope) ctxArgs) raw) vv = .ok o ∧ b = o ++ rr := by
        intro b vv rr hstep
        cases hmf : mapF with
        | none =>
          rw [hmf] at hstep
          simp only [applyMap] at hstep
          have hne := decodeType_ne_absent hstep
          obtain ⟨o, he, hb⟩ := rtType ty _ _ _ _ _ b vv rr hgt hstep
          refine ⟨hne, o, ?_, hb⟩
          simp only [encodeElem, applyMapWrite]
          exact he
        | some m =>
          rw [hmf] at hstep
          cases hdec : decodeType ty (resolveWidth size (naturalWidth ty) ctxSz)
              (effEndian endian topE) (fwdEndian endian topE) (fwdSize size ctxSz)
              (List.map (fun g => g scope) ctxArgs) b with
          | error e => rw [hdec] at hstep; simp [applyMap] at hstep
          | ok pr =>
            obtain ⟨raw, r1⟩ := pr
            rw [hdec] at hstep
            simp only [applyMap] at hstep
            cases hm : m raw with
            | none => rw [hm] at hstep; simp at hstep
            | some v2 =>
              rw [hm] at hstep
              simp only [Except.ok.injEq, Prod.mk.injEq] at hstep
              obtain ⟨hv2, hr1⟩ := hstep
              obtain ⟨g, hgw, hinv⟩ := hmap m hmf
              obtain ⟨hginv, hvne⟩ := hinv raw v2 hm
              obtain ⟨o, he, hb⟩ := rtType ty _ _ _ _ _ b raw r1 hgt hdec
              subst hv2
              subst hr1
              refine ⟨hvne, o, ?_, hb⟩
              rw [hgw]
              simp only [encodeElem, applyMapWrite, hginv]
              exact he
      split at hd
      next =>
        obtain ⟨hvne, o, he, hb⟩ := H bits v rest hd
        refine ⟨o, ?_, hb⟩
        unfold encodeField
        rw [if_neg (by simp), if_neg (by simp [isAbsent_eq_false hvne])]
        exact he
      next ce =>
        split at hd
        · exact absurd hd (by simp)
        · split at hd
          · exact absurd hd (by simp)
          next vs r heq2 =>
            simp only [Except.ok.injEq, Prod.mk.injEq] at hd
            obtain ⟨hv, hr⟩ := hd
            obtain ⟨out, heL, hbL⟩ := rtIterate _ _ (fun b vv rr hstep => (H b vv rr hstep).2)
              (ce scope).toNat bits vs r heq2
            refine ⟨out, ?_, by rw [← hr]; exact hbL⟩
            unfold encodeField
            rw [if_neg (by simp), ← hv, if_neg (by simp [isAbsent])]
            exact heL

theorem rtFields (fs : List FieldSpec) (scope : Scope) (topE : Option Endian) (ctxSz : Option Nat)
    (bits : List Bool) (entries : List (String × Value)) (rest : List Bool)
    (hg : goodFs fs) (hd : decodeFields fs scope topE ctxSz bits = .ok (entries, rest)) :
    ∃ out, encodeFields fs scope topE ctxSz entries = .ok out ∧ bits = out ++ rest := by
  cases fs with
  | nil =>
    unfold decodeFields at hd
    simp only [Except.ok.injEq, Prod.mk.injEq] at hd
    obtain ⟨he, hr⟩ := hd
    exact ⟨[], by rw [← he]; rfl, by rw [← hr]; rfl⟩
  | cons f fs2 =>
    unfold decodeFields at hd
    split at hd
    · exact absurd hd (by simp)
    next v1 bits2 heq1 =>
      split at hd
      · exact absurd hd (by simp)
      next entries2 bits3 heq2 =>
        simp only [Except.ok.injEq, Prod.mk.injEq] at hd
        obtain ⟨hent, hrest⟩ := hd
        simp only [goodFs] at hg
        obtain ⟨hgf, hgfs⟩ := hg
        obtain ⟨o1, he1, hb1⟩ := rtField f scope topE ctxSz bits v1 bits2 hgf heq1
        obtain ⟨o2, he2, hb2⟩ :=
          rtFields fs2 (scope ++ [(fieldName f, v1)]) topE ctxSz bits2 entries2 bits3 hgfs heq2
        refine ⟨o1 ++ o2, ?_, ?_⟩
        · rw [← hent]
          unfold encodeFields
          rw [if_pos rfl]
          simp [he1, he2]
        · rw [hb1, hb2, ← hrest, List.append_assoc]

theorem rtContainer (c : ContainerSpec) (args : List Value) (ctxE : Option Endian)
    (ctxSz : Option Nat) (bits : List Bool) (v : Value) (rest : List Bool)
    (hg : goodC c) (hd : decodeContainer c args ctxE ctxSz bits = .ok (v, rest)) :
    ∃ out, encodeContainer c args ctxE ctxSz v = .ok out ∧ bits = out ++ rest := by
  cases c with
  | mk topE params dflts fields =>
    unfold decodeContainer at hd
    split at hd
    · exact absurd hd (by simp)
    next entries bits3 heq =>
      simp only [Except.ok.injEq, Prod.mk.injEq] at hd
      obtain ⟨hv, hr⟩ := hd
      obtain ⟨out, he, hb⟩ := rtFields fields
        (List.zip params (if args.isEmpty then dflts else args)) (resolveTop topE ctxE)
        ctxSz bits entries bits3 (by simpa [goodC] using hg) heq
      refine ⟨out, ?_, by rw [hb, hr]⟩
      rw [← hv]
      unfold encodeContainer
      exact he

theorem rtEnum (en : EnumSpec) (args : List Value) (ctxE : Option Endian)
    (ctxSz : Option Nat) (bits : List Bool) (v : Value) (rest : List Bool)
    (hg : goodE en) (hd : decodeEnum en args ctxE ctxSz bits = .ok (v, rest)) :
    ∃ out, encodeEnum en args ctxE ctxSz v = .ok out ∧ bits = out ++ rest := by
  cases en with
  | mk topE params dflts idW extId variants =>
    simp only [decodeEnum] at hd
    split at hd
    next ide =>
      obtain ⟨j, entries, hv, _⟩ := decodeVariants_shape _ _ _ _ _ _ _ _ _ _ hd
      subst hv
      obtain ⟨hj, out, he, hb⟩ := rtVariants variants 0
        (ide (List.zip params (if args.isEmpty then dflts else args)))
        (List.zip params (if args.isEmpty then dflts else args))
        (resolveTop topE ctxE) ctxSz bits bits idW true j entries rest
        (by simpa [goodE] using hg) (fun _ => rfl) (by simp) hd
      refine ⟨out, ?_, hb⟩
      unfold encodeEnum
      simpa using he
    next =>
      split at hd
      · exact absurd hd (by simp)
      next chunk rest0 heq =>
        obtain ⟨hn, hc, hr⟩ := readBits_ok heq
        obtain ⟨j, entries, hv, _⟩ := decodeVariants_shape _ _ _ _ _ _ _ _ _ _ hd
        subst hv
        obtain ⟨hj, out, he, hb⟩ := rtVariants variants 0
          (decodeScalarBits idW (effEndian none (resolveTop topE ctxE)) chunk)
          (List.zip params (if args.isEmpty then dflts else args))
          (resolveTop topE ctxE) ctxSz bits rest0 idW false j entries rest
          (by simpa [goodE] using hg) (by simp)
          (fun _ => ⟨hn, by rw [hr], by rw [hc]⟩) hd
        refine ⟨out, ?_, hb⟩
        unfold encodeEnum
        simpa using he

theorem rtVariants (vs : List VariantSpec) (idx disc : Nat) (scope : Scope)
    (tE : Option Endian) (sz : Option Nat) (pre post : List Bool) (idW : Nat) (ext : Bool)
    (j : Nat) (entries : List (String × Value)) (rest : List Bool)
    (hg : goodVs vs)
    (hext : ext = true → pre = post)
    (hnon : ext = false → idW ≤ pre.length ∧ post = pre.drop idW ∧
      disc = decodeScalarBits idW (effEndian none tE) (pre.take idW))
    (hd : decodeVariants vs idx disc scope tE sz pre post = .ok (.variantVal j entries, rest)) :
    idx ≤ j ∧ ∃ out, encodeVariants vs (j - idx) idW ext tE sz scope entries = .ok out ∧
      pre = out ++ rest := by
  cases vs with
  | nil => exact absurd hd (by simp [decodeVariants])
  | cons hv0 tl =>
    cases hv0 with
    | mk im fields =>
      simp only [goodVs] at hg
      obtain ⟨hgf, hgtl⟩ := hg
      unfold decodeVariants at hd
      split at hd
      next hmatch =>
        split at hd
        · exact absurd hd (by simp)
        next entriesF r heqf =>
          simp only [Except.ok.injEq, Value.variantVal.injEq, Prod.mk.injEq] at hd
          obtain ⟨⟨hidx, hent⟩, hr⟩ := hd
          subst hidx
          obtain ⟨fb, hef, hbf⟩ :=
            rtFields fields scope tE sz (variantBits im pre post) entriesF r hgf heqf
          rw [hent] at hef
          refine ⟨Nat.le_refl _, ?_⟩
          rw [Nat.sub_self]
          cases im with
          | idExpr n =>
            have hdn : disc = n := by
              simpa [variantMatches] using hmatch
            cases ext with
            | true =>
              have hpp := hext rfl
              refine ⟨fb, ?_, ?_⟩
              · unfold encodeVariants
                simp [hef]
              · rw [hpp]
                simpa [variantBits, hr] using hbf
            | false =>
              obtain ⟨hn, hpost, hdisc⟩ := hnon rfl
              have hscal : encodeScalar n idW (effEndian none tE) = .ok (pre.take idW) := by
                rw [← hdn, hdisc]
                exact encodeScalar_decodeScalarBits idW _ _ (length_take_of_le hn)
              refine ⟨pre.take idW ++ fb, ?_, ?_⟩
              · unfold encodeVariants
                simp [hef, hscal]
              · have hX : pre.drop idW = fb ++ rest := by
                  rw [← hpost]
                  simpa [variantBits, hr] using hbf
                rw [List.append_assoc, ← hX]
                exact (List.take_append_drop _ _).symm
          | idPat p =>
            refine ⟨fb, ?_, ?_⟩
            · unfold encodeVariants
              cases ext <;> simp [hef]
            · simpa [variantBits, hr] using hbf
          | catchAll =>
            refine ⟨fb, ?_, ?_⟩
            · unfold encodeVariants
              cases ext <;> simp [hef]
            · simpa [variantBits, hr] using hbf
      next hmatch =>
        obtain ⟨hj1, out, he, hb⟩ := rtVariants tl (idx + 1) disc scope tE sz pre post idW ext
          j entries rest hgtl hext hnon hd
        refine ⟨by omega, out, ?_, hb⟩
        have harith : j - idx = (j - (idx + 1)) + 1 := by omega
        rw [harith]
        unfold encodeVariants
        exact he

end

theorem freeSame_refl : ∀ (fs : List FieldSpec) (x : List (String × Value)), freeSame fs x x
  | [], x => rfl
  | _ :: _, [] => rfl
  | f :: fs, (n, v) :: t => ⟨rfl, fun _ => rfl, freeSame_refl fs t⟩

theorem namesAligned_freeSame : ∀ (fs : List FieldSpec) (x y : List (String × Value)),
    freeSame fs x y → namesAligned fs x → namesAligned fs y
  | [], x, y, hfs, _ => by
      simp only [freeSame] at hfs
      subst hfs
      simp [namesAligned]
  | _ :: _, [], y, hfs, _ => by
      simp only [freeSame] at hfs
      subst hfs
      simp [namesAligned]
  | f :: fs, (n1, v1) :: t1, y, hfs, hna => by
      match y, hfs with
      | (n2, v2) :: t2, ⟨hnn, _, htail⟩ =>
        simp only [namesAligned] at hna ⊢
        exact ⟨hnn ▸ hna.1, namesAligned_freeSame fs t1 t2 htail hna.2⟩

theorem getAgree : ∀ (freeN : List String) (fs : List FieldSpec)
    (x y : List (String × Value)), freeSame fs x y → namesAligned fs x →
    notFreeFor freeN fs → ∀ n, n ∈ freeN → Scope.get x n = Scope.get y n
  | _, [], x, y, hfs, _, _, n, _ => by
      simp only [freeSame] at hfs
      rw [hfs]
  | _, _ :: _, [], y, hfs, _, _, n, _ => by
      simp only [freeSame] at hfs
      rw [hfs]
  | freeN, f :: fs, (n1, v1) :: t1, y, hfs, hna, hnf, n, hn => by
      match y, hfs with
      | (n2, v2) :: t2, ⟨hnn, hfv, htail⟩ =>
        subst hnn
        simp only [namesAligned] at hna
        simp only [notFreeFor] at hnf
        by_cases hc : n1 = n
        · simp only [Scope.get, if_pos hc]
          cases hfu : fieldUpdate f with
          | none => rw [hfv hfu]
          | some e =>
            refine absurd (show fieldName f ∈ freeN by rw [← hna.1, hc]; exact hn)
              (hnf.1 (by simp [hfu]))
        · simp only [Scope.get, if_neg hc]
          exact getAgree freeN fs t1 t2 htail hna.2 hnf.2 n hn

theorem p1_names : ∀ (fs : List FieldSpec) (x : List (String × Value)),
    namesAligned fs x → namesAligned fs (updateFieldsInner fs x)
  | [], x, h => by simpa [updateFieldsInner] using h
  | _ :: _, [], h => by simp [updateFieldsInner, namesAligned]
  | .mk nm sz en sk cd df ct mf mw ca u t :: fs, (n, v) :: rest, h => by
      simp only [updateFieldsInner, namesAligned] at h ⊢
      exact ⟨h.1, p1_names fs rest h.2⟩

theorem assignShape : ∀ (fs : List FieldSpec) (d x : List (String × Value)),
    ∃ y, updateAssign fs d x = d ++ y ∧ freeSame fs x y
  | [], d, x => ⟨x, by simp [updateAssign], freeSame_refl [] x⟩
  | f :: fs2, d, [] => ⟨[], by simp [updateAssign], rfl⟩
  | f :: fs2, d, (n, v) :: t => by
      cases hfu : fieldUpdate f with
      | none =>
        obtain ⟨y2, hy2, hfs2⟩ := assignShape fs2 (d ++ [(n, v)]) t
        refine ⟨(n, v) :: y2, ?_, rfl, fun _ => rfl, hfs2⟩
        simp only [updateAssign, hfu]
        rw [hy2, List.append_assoc]
        rfl
      | some e =>
        obtain ⟨y2, hy2, hfs2⟩ := assignShape fs2 (d ++ [(n, e (d ++ (n, v) :: t))]) t
        refine ⟨(n, e (d ++ (n, v) :: t)) :: y2, ?_, rfl, ?_, hfs2⟩
        · simp only [updateAssign, hfu]
          rw [hy2, List.append_assoc]
          rfl
        · intro h
          rw [hfu] at h
          exact absurd h (by simp)

theorem assignCongr : ∀ (fs : List FieldSpec) (d x y : List (String × Value))
    (freeN : List String), exprsOkFor freeN fs → freeSame fs x y →
    (∀ n, n ∈ freeN → Scope.get (d ++ x) n = Scope.get (d ++ y) n) →
    updateAssign fs d x = updateAssign fs d y
  | [], d, x, y, freeN, _, hfs, _ => by
      simp only [freeSame] at hfs
      rw [hfs]
  | f :: fs2, d, [], y, freeN, _, hfs, _ => by
      simp only [freeSame] at hfs
      rw [hfs]
  | f :: fs2, d, (n1, v1) :: t1, y, freeN, hex, hfs, hga => by
      match y, hfs with
      | (n2, v2) :: t2, ⟨hnn, hfv, htail⟩ =>
        subst hnn
        simp only [exprsOkFor] at hex
        cases hfu : fieldUpdate f with
        | none =>
          have hv := hfv hfu
          subst hv
          simp only [updateAssign, hfu]
          refine assignCongr fs2 (d ++ [(n1, v1)]) t1 t2 freeN hex.2 htail ?_
          intro n hn
          rw [List.append_assoc, List.append_assoc, List.singleton_append,
            List.singleton_append]
          exact hga n hn
        | some e =>
          have hes : e (d ++ (n1, v1) :: t1) = e (d ++ (n1, v2) :: t2) :=
            hex.1 e hfu _ _ hga
          simp only [updateAssign, hfu]
          rw [hes]
          refine assignCongr fs2 (d ++ [(n1, e (d ++ (n1, v2) :: t2))]) t1 t2 freeN
            hex.2 htail ?_
          intro n hn
          rw [List.append_assoc, List.append_assoc, List.singleton_append,
            List.singleton_append]
          rw [Scope.get_append, Scope.get_append]
          cases hq : Scope.get d n with
          | some w => simp [Option.or]
          | none =>
            simp only [Option.or]
            by_cases hne : n1 = n
            · simp [Scope.get, hne]
            · simp only [Scope.get, if_neg hne]
              have h0 := hga n hn
              rw [Scope.get_append, Scope.get_append, hq] at h0
              simp only [Option.or] at h0
              simpa [Scope.get, if_neg hne] using h0

mutual

theorem idemT : ∀ (t : TypeSpec) (v : Value), updOkT t → alignedT t v →
    updateWithTy t (updateWithTy t v) = updateWithTy t v
  | t, .seq vs, hok, hal => by
      have hal2 : alignedSeq t vs := by simpa [alignedT] using hal
      simp only [updateWithTy]
      rw [idemSeq t vs hok hal2]
  | .scalar w, .uint n, _, _ => by simp [updateWithTy]
  | .scalar w, .record es, _, _ => by simp [updateWithTy]
  | .scalar w, .variantVal j es, _, _ => by simp [updateWithTy]
  | .scalar w, .absent, _, _ => by simp [updateWithTy]
  | .nestedStruct c, .uint n, _, _ => by
      cases c
      simp [updateWithTy, updateContainer]
  | .nestedStruct c, .absent, _, _ => by
      cases c
      simp [updateWithTy, updateContainer]
  | .nestedStruct c, .variantVal j es, _, _ => by
      cases c
      simp [updateWithTy, updateContainer]
  | .nestedStruct c, .record es, hok, hal => by
      cases c with
      | mk a pb pd fields =>
        have hokc : updOkC (.mk a pb pd fields) := by simpa [updOkT] using hok
        simp only [updOkC] at hokc
        have halc : alignedC (.mk a pb pd fields) (.record es) := by simpa [alignedT] using hal
        simp only [alignedC] at halc
        simp only [updateWithTy, updateContainer]
        rw [idemCore fields es hokc.1 hokc.2.1 hokc.2.2 halc.1 halc.2]
  | .nestedEnum en, .uint n, _, _ => by
      cases en
      simp [updateWithTy, updateEnum]
  | .nestedEnum en, .absent, _, _ => by
      cases en
      simp [updateWithTy, updateEnum]
  | .nestedEnum en, .record es, _, _ => by
      cases en
      simp [updateWithTy, updateEnum]
  | .nestedEnum en, .variantVal j es, hok, hal => by
      cases en with
      | mk a pb pd iw ext variants =>
        have hokv : updOkVs variants := by simpa [updOkT, updOkE] using hok
        have halv : alignedVs variants j es := by simpa [alignedT, alignedE] using hal
        simp only [updateWithTy, updateEnum]
        rw [idemVs variants j es hokv halv]
termination_by t v => (sizeOf t, sizeOf v)

theorem idemSeq : ∀ (t : TypeSpec) (vs : List Value), updOkT t → alignedSeq t vs →
    updateSeqGo t (updateSeqGo t vs) = updateSeqGo t vs
  | t, [], _, _ => by simp [updateSeqGo]
  | t, x :: xs, hok, hal => by
      have hal2 : alignedT t x ∧ alignedSeq t xs := by simpa [alignedSeq] using hal
      simp only [updateSeqGo]
      rw [idemT t x hok hal2.1, idemSeq t xs hok hal2.2]
termination_by t vs => (sizeOf t, sizeOf vs)

theorem idemCore : ∀ (fields : List FieldSpec) (entries : List (String × Value)),
    exprsOkFor (freeNames fields) fields → notFreeFor (freeNames fields) fields →
    updOkFs fields → namesAligned fields entries → alignedFs fields entries →
    updateAssign fields [] (updateFieldsInner fields
      (updateAssign fields [] (updateFieldsInner fields entries))) =
    updateAssign fields [] (updateFieldsInner fields entries)
  | fields, entries, hex, hnf, hok, hna, hal => by
      obtain ⟨r, hr, hfsr⟩ := assignShape fields [] (updateFieldsInner fields entries)
      rw [List.nil_append] at hr
      rw [hr]
      have hp1free : freeSame fields (updateFieldsInner fields r)
          (updateFieldsInner fields entries) := p1Free fields entries r hok hal hfsr
      have hna1 : namesAligned fields (updateFieldsInner fields entries) :=
        p1_names fields entries hna
      have hnar : namesAligned fields r := namesAligned_freeSame fields _ r hfsr hna1
      have hnap1r : namesAligned fields (updateFieldsInner fields r) := p1_names fields r hnar
      have hga := getAgree (freeNames fields) fields _ _ hp1free hnap1r hnf
      have hcongr := assignCongr fields [] (updateFieldsInner fields r)
        (updateFieldsInner fields entries) (freeNames fields) hex hp1free
        (by intro n hn; rw [List.nil_append, List.nil_append]; exact hga n hn)
      rw [hcongr, hr]
termination_by fields entries => (sizeOf fields, 1)

theorem p1Free : ∀ (fs : List FieldSpec) (x y : List (String × Value)),
    updOkFs fs → alignedFs fs x → freeSame fs (updateFieldsInner fs x) y →
    freeSame fs (updateFieldsInner fs y) (updateFieldsInner fs x)
  | [], x, y, _, _, hfs => by
      simp only [updateFieldsInner] at hfs ⊢
      simp only [freeSame] at hfs ⊢
      rw [hfs]
  | f :: fs2, [], y, _, _, hfs => by
      simp only [updateFieldsInner, freeSame] at hfs
      rw [← hfs]
      simp only [updateFieldsInner]
      exact freeSame_refl _ _
  | .mk nm sz en sk cd df ct mf mw ca u t :: fs2, (n1, v1) :: t1, y, hok, hal, hfs => by
      cases y with
      | nil =>
        simp only [updateFieldsInner, freeSame] at hfs
        exact absurd hfs (by simp)
      | cons q t2 =>
        obtain ⟨n2, v2⟩ := q
        simp only [updateFieldsInner] at hfs ⊢
        simp only [freeSame] at hfs ⊢
        obtain ⟨hnn, hfv, htail⟩ := hfs
        simp only [updOkFs] at hok
        simp only [alignedFs] at hal
        refine ⟨hnn.symm, ?_, p1Free fs2 t1 t2 hok.2 hal.2 htail⟩
        intro hu
        simp only [fieldUpdate] at hfv hu
        have hv2 := hfv hu
        rw [← hv2]
        exact idemT t v1 hok.1 (hal.1 hu)
termination_by fs x y => (sizeOf fs, 0)

theorem idemC : ∀ (c : ContainerSpec) (v : Value), updOkC c → alignedC c v →
    updateContainer c (updateContainer c v) = updateContainer c v
  | .mk a pb pd fields, .record es, hok, hal => by
      simp only [updOkC] at hok
      simp only [alignedC] at hal
      simp only [updateContainer]
      rw [idemCore fields es hok.1 hok.2.1 hok.2.2 hal.1 hal.2]
  | .mk a pb pd fields, .uint n, _, _ => by simp [updateContainer]
  | .mk a pb pd fields, .seq vs, _, _ => by simp [updateContainer]
  | .mk a pb pd fields, .variantVal j es, _, _ => by simp [updateContainer]
  | .mk a pb pd fields, .absent, _, _ => by simp [updateContainer]
termination_by c v => (sizeOf c, 2)

theorem idemVs : ∀ (vs : List VariantSpec) (j : Nat) (entries : List (String × Value)),
    updOkVs vs → alignedVs vs j entries →
    updateVariantsGo vs j (updateVariantsGo vs j entries) = updateVariantsGo vs j entries
  | [], j, entries, _, _ => by simp [updateVariantsGo]
  | .mk im fields :: tl, 0, entries, hok, hal => by
      simp only [updOkVs] at hok
      simp only [alignedVs] at hal
      simp only [updateVariantsGo]
      rw [idemCore fields entries hok.1 hok.2.1 hok.2.2.1 hal.1 hal.2]
  | .mk im fields :: tl, j + 1, entries, hok, hal => by
      simp only [updOkVs] at hok
      simp only [alignedVs] at hal
      simp only [updateVariantsGo]
      rw [idemVs tl j entries hok.2.2.2 hal]
termination_by vs j entries => (sizeOf vs, 2)

theorem idemE : ∀ (en : EnumSpec) (v : Value), updOkE en → alignedE en v →
    updateEnum en (updateEnum en v) = updateEnum en v
  | .mk a pb pd iw ext variants, .variantVal j es, hok, hal => by
      have hokv : updOkVs variants := by simpa [updOkE] using hok
      have halv : alignedVs variants j es := by simpa [alignedE] using hal
      simp only [updateEnum]
      rw [idemVs variants j es hokv halv]
  | .mk a pb pd iw ext variants, .uint n, _, _ => by simp [updateEnum]
  | .mk a pb pd iw ext variants, .seq vs2, _, _ => by simp [updateEnum]
  | .mk a pb pd iw ext variants, .record es, _, _ => by simp [updateEnum]
  | .mk a pb pd iw ext variants, .absent, _, _ => by simp [updateEnum]
termination_by en v => (sizeOf en, 2)

end

/-- C1 counterexample: the round-trip property fails as stated.  The `cond`
doctest schema without its `skip` field uses no `skip` and no `map`, the
bytes `[0x01, 0x02]` decode successfully consuming everything, yet encoding
the decoded value produces `[0x01, 0x02, 0x05]` — the defaulted conditional
field's byte is emitted — which differs from the original bytes. -/
theorem C1_counterexample :
    noSkipNoMapC condSchema3 ∧
    decodeContainer condSchema3 [] none none (bitsOfBytes [0x01, 0x02]) =
      .ok (.record [("field_a", .uint 1), ("field_b", .uint 2), ("field_c", .uint 5)], []) ∧
    encodeContainer condSchema3 [] none none
      (.record [("field_a", .uint 1), ("field_b", .uint 2), ("field_c", .uint 5)]) =
      .ok (bitsOfBytes [0x01, 0x02, 0x05]) ∧
    bitsOfBytes [0x01, 0x02, 0x05] ≠ bitsOfBytes [0x01, 0x02] := by
  refine ⟨?_, by rfl, by rfl, by decide⟩
  simp [noSkipNoMapC, noSkipNoMapFs, noSkipNoMapF, noSkipNoMapT, condSchema3, u8F, scalarField]

/-- C1 (amended): for every byte sequence that decodes successfully (with
nothing left over) under a schema in which no field uses `skip`, every `map`
is reversible (a paired write-back inverts it and never yields the absent
representation), and every field with a `cond` has no `default` (a false
condition yields the absent representation), encoding the decoded value
reproduces the original bits exactly. -/
theorem C1_roundtrip_amended (c : ContainerSpec) (bits : List Bool) (v : Value)
    (hg : goodC c) (hd : decodeContainer c [] none none bits = .ok (v, [])) :
    encodeContainer c [] none none v = .ok bits := by
  obtain ⟨out, he, hb⟩ := rtContainer c [] none none bits v [] hg hd
  rw [List.append_nil] at hb
  rw [hb]
  exact he

/-- C1 witness: the endian-ctx doctest schema satisfies the amended
hypotheses and its decoded value re-encodes to the original bytes. -/
theorem C1_roundtrip_amended_witness :
    encodeContainer ctxSchema [] none none
      (.record [("field_be", .uint 0xABCD), ("field_default", .uint 0xCDAB),
        ("field_child", .record [("field_a", .uint 0xBEEF)])]) =
      .ok (bitsOfBytes [0xAB, 0xCD, 0xAB, 0xCD, 0xEF, 0xBE]) :=
  C1_roundtrip_amended ctxSchema (bitsOfBytes [0xAB, 0xCD, 0xAB, 0xCD, 0xEF, 0xBE]) _
    (by simp [goodC, goodFs, goodF, goodT, ctxSchema, childSpec, u16F, scalarField])
    (by rfl)

/-- C2 counterexample: during encode the condition is not consulted.  In the
`cond` doctest the in-memory value has `field_c = Some(0x05)` while
`field_c`'s condition is false against its in-memory siblings, yet the
encoded output `[0x01, 0x02, 0x05]` contains that field's byte (the claim
would require `[0x01, 0x02]`). -/
theorem C2_counterexample :
    condC [("field_a", .uint 1), ("field_b", .uint 2)] = false ∧
    encodeContainer condSchema [] none none
      (.record [("field_a", .uint 1), ("field_b", .uint 2), ("field_c", .uint 5),
        ("field_d", .uint 6)]) =
      .ok (bitsOfBytes [0x01, 0x02, 0x05]) ∧
    bitsOfBytes [0x01, 0x02, 0x05] ≠ bitsOfBytes [0x01, 0x02] :=
  ⟨rfl, rfl, by decide⟩

/-- C2 (amended): during encode of a field carrying a `cond`, the condition
is not evaluated at all: the encoder behaves exactly as if no `cond` were
declared, writing the in-memory value (a field holding the absent
representation emits nothing); in particular a field whose condition was
false at decode time and holds a present default value does contribute its
encoding to the output, as the `cond` doctest asserts. -/
theorem C2_encode_ignores_cond :
    (∀ (nm : String) (size : SizeSpec) (endian : Option Endian) (cond : Scope → Bool)
      (dflt : Option (Scope → Value)) (count : Option (Scope → Int))
      (mapF mapW : Option (Value → Option Value)) (ctxArgs : List (Scope → Value))
      (upd : Option (Scope → Value)) (ty : TypeSpec) (scope : Scope) (topE : Option Endian)
      (sz : Option Nat) (v : Value),
      encodeField (.mk nm size endian false (some cond) dflt count mapF mapW ctxArgs upd ty)
          scope topE sz v =
        encodeField (.mk nm size endian false none dflt count mapF mapW ctxArgs upd ty)
          scope topE sz v) ∧
    decodeContainer condSchema [] none none (bitsOfBytes [0x01, 0x02]) =
      .ok (.record [("field_a", .uint 1), ("field_b", .uint 2), ("field_c", .uint 5),
        ("field_d", .uint 6)], []) ∧
    encodeContainer condSchema [] none none
      (.record [("field_a", .uint 1), ("field_b", .uint 2), ("field_c", .uint 5),
        ("field_d", .uint 6)]) =
      .ok (bitsOfBytes [0x01, 0x02, 0x05]) :=
  ⟨fun _ _ _ _ _ _ _ _ _ _ _ _ _ _ _ => rfl, rfl, rfl⟩

/-- C3: a field marked `skip` never touches the stream in either direction,
regardless of any `cond`: decode consumes zero bits and yields exactly the
`default` expression's value (the absent representation when no default is
declared), and encode emits zero bits whatever the in-memory value. -/
theorem C3_skip_precedence (f : FieldSpec) (scope : Scope) (topE : Option Endian)
    (sz : Option Nat) (bits : List Bool) (v : Value) (h : fieldSkip f = true) :
    decodeField f scope topE sz bits = .ok (evalDefault (fieldDefault f) scope, bits) ∧
    encodeField f scope topE sz v = .ok [] := by
  cases f with
  | mk nm size endian skp cond dflt count mapF mapW ctxArgs upd ty =>
    simp only [fieldSkip] at h
    subst h
    constructor
    · simp [decodeField, fieldDefault]
    · simp [encodeField]

/-- C3 witness: the `cond` doctest's `field_d` (marked `skip` with a true
condition and default `Some(0x06)`) consumes nothing and emits nothing. -/
theorem C3_skip_precedence_witness :
    decodeField fieldD [] none none (bitsOfBytes [0xAB]) =
      .ok (evalDefault (fieldDefault fieldD) [], bitsOfBytes [0xAB]) ∧
    encodeField fieldD [] none none (.uint 6) = .ok [] :=
  C3_skip_precedence fieldD [] none none (bitsOfBytes [0xAB]) (.uint 6) (by rfl)

/-- C4: decoding a 2-bit field then a 6-bit field from the byte
`0b11_101010` yields `0b11` and `0b101010` (MSB-first, no alignment between
fields), and encoding those two values reproduces the byte. -/
theorem C4_subbyte_bits :
    decodeContainer bitsSchema [] none none (bitsOfBytes [0b11101010]) =
      .ok (.record [("field_a", .uint 0b11), ("field_b", .uint 0b101010)], []) ∧
    encodeContainer bitsSchema [] none none
      (.record [("field_a", .uint 0b11), ("field_b", .uint 0b101010)]) =
      .ok (bitsOfBytes [0b11101010]) :=
  ⟨rfl, rfl⟩

/-- C5: enum dispatch on the variant-id doctest — `0x01,0xFF` decodes to
`VariantA(0xFF)` and re-encodes to `[0x01, 0xFF]`; the following
`0x02,0xAB,0xEF,0xBE` decodes to `VariantB(0xAB, 0xBEEF)` (little-endian
`u16`) and re-encodes identically; the discriminant `0xFF`, matching no
explicit id, selects the catch-all, which stores the discriminant in its
own field and re-encodes to `[0xFF]`. -/
theorem C5_enum_dispatch :
    decodeEnum enumSchema [] none none
        (bitsOfBytes [0x01, 0xFF, 0x02, 0xAB, 0xEF, 0xBE, 0xFF]) =
      .ok (.variantVal 0 [("0", .uint 0xFF)], bitsOfBytes [0x02, 0xAB, 0xEF, 0xBE, 0xFF]) ∧
    encodeEnum enumSchema [] none none (.variantVal 0 [("0", .uint 0xFF)]) =
      .ok (bitsOfBytes [0x01, 0xFF]) ∧
    decodeEnum enumSchema [] none none (bitsOfBytes [0x02, 0xAB, 0xEF, 0xBE, 0xFF]) =
      .ok (.variantVal 1 [("0", .uint 0xAB), ("1", .uint 0xBEEF)], bitsOfBytes [0xFF]) ∧
    encodeEnum enumSchema [] none none
        (.variantVal 1 [("0", .uint 0xAB), ("1", .uint 0xBEEF)]) =
      .ok (bitsOfBytes [0x02, 0xAB, 0xEF, 0xBE]) ∧
    decodeEnum enumSchema [] none none (bitsOfBytes [0xFF]) =
      .ok (.variantVal 2 [("type_", .uint 0xFF)], []) ∧
    encodeEnum enumSchema [] none none (.variantVal 2 [("type_", .uint 0xFF)]) =
      .ok (bitsOfBytes [0xFF]) :=
  ⟨rfl, rfl, rfl, rfl, rfl, rfl⟩

/-- C6: on the count/update doctest schema, `[0x02, 0xAB, 0xCD]` decodes to
`count = 2, items = [0xAB, 0xCD]`; after appending `0xFF` to the items,
update recomputes `count = 3` and encoding yields
`[0x03, 0xAB, 0xCD, 0xFF]`; without the update, encode iterates the actual
in-memory element count and emits the stale count byte unchanged
(`[0x02, 0xAB, 0xCD, 0xFF]`) — it does not auto-reconcile. -/
theorem C6_count_update :
    decodeContainer countSchema [] none none (bitsOfBytes [0x02, 0xAB, 0xCD]) =
      .ok (.record [("count", .uint 2), ("items", .seq [.uint 0xAB, .uint 0xCD])], []) ∧
    updateContainer countSchema
        (.record [("count", .uint 2),
          ("items", .seq [.uint 0xAB, .uint 0xCD, .uint 0xFF])]) =
      .record [("count", .uint 3), ("items", .seq [.uint 0xAB, .uint 0xCD, .uint 0xFF])] ∧
    encodeContainer countSchema [] none none
        (.record [("count", .uint 3),
          ("items", .seq [.uint 0xAB, .uint 0xCD, .uint 0xFF])]) =
      .ok (bitsOfBytes [0x03, 0xAB, 0xCD, 0xFF]) ∧
    encodeContainer countSchema [] none none
        (.record [("count", .uint 2),
          ("items", .seq [.uint 0xAB, .uint 0xCD, .uint 0xFF])]) =
      .ok (bitsOfBytes [0x02, 0xAB, 0xCD, 0xFF]) := by
  refine ⟨by rfl, ?_, by rfl, by rfl⟩
  simp [updateContainer, updateFieldsInner, updateWithTy, updateSeqGo, updateAssign,
    countSchema, u8F, scalarField, fieldUpdate, updCount, Scope.get]

/-- C7 counterexample: update is not idempotent for every value and schema.
The legal update expression `count = self.count + 1` increments on every
pass, so two passes differ from one. -/
theorem C7_counterexample :
    updateContainer incSchema (updateContainer incSchema (.record [("count", .uint 0)])) ≠
      updateContainer incSchema (.record [("count", .uint 0)]) := by
  simp [updateContainer, updateFieldsInner, updateWithTy, updateAssign, incSchema,
    fieldUpdate, selfInc, Scope.get]

/-- C7 (amended): update never touches the bit stream (it is a pure value
transformation with no stream argument), and it is idempotent for every
schema whose update expressions depend only on update-free fields (no
update-carrying field shadowing an update-free name) and every structurally
fitting value — as in the doctest's `count = self.items.len()`; a
self-referential update expression such as `count = self.count + 1` breaks
idempotence. -/
theorem C7_update_idempotent_amended (c : ContainerSpec) (v : Value)
    (h1 : updOkC c) (h2 : alignedC c v) :
    updateContainer c (updateContainer c v) = updateContainer c v :=
  idemC c v h1 h2

/-- C7 witness: the count/update doctest schema satisfies the amended
hypotheses, and updating its decoded-and-extended value twice equals
updating once. -/
theorem C7_update_idempotent_amended_witness :
    updateContainer countSchema (updateContainer countSchema
        (.record [("count", .uint 2),
          ("items", .seq [.uint 0xAB, .uint 0xCD, .uint 0xFF])])) =
      updateContainer countSchema
        (.record [("count", .uint 2),
          ("items", .seq [.uint 0xAB, .uint 0xCD, .uint 0xFF])]) :=
  C7_update_idempotent_amended countSchema _
    (by
      simp only [countSchema, updOkC, u8F, scalarField]
      refine ⟨⟨?_, ?_, trivial⟩, ?_, ?_⟩
      · intro e he s1 s2 hagree
        have he2 : updCount = e := by
          simp only [fieldUpdate] at he
          exact Option.some.inj he
        subst he2
        simp only [updCount]
        rw [hagree "items" (by simp [freeNames, fieldUpdate, fieldName])]
      · intro e he
        simp [fieldUpdate] at he
      · simp [notFreeFor, fieldUpdate, fieldName, freeNames]
      · simp [updOkFs, updOkT])
    (by
      simp only [countSchema, alignedC, u8F, scalarField]
      refine ⟨?_, ?_⟩
      · simp [namesAligned, fieldName]
      · simp [alignedFs, alignedT, alignedSeq])

/-- C8: endianness for a field resolves with precedence field attribute over
container top-level attribute over platform default; a container's
top-level endian and a field's bit-size attribute are implicitly forwarded
to a nested child declaring the matching context parameter, so the child
decodes with the parent's top-level endianness (or forwarded width) with no
explicit forwarding — as the endian-ctx doctest asserts concretely. -/
theorem C8_endian_resolution :
    (∀ (e : Endian) (te : Option Endian), effEndian (some e) te = e) ∧
    (∀ e : Endian, effEndian none (some e) = e) ∧
    effEndian none none = systemEndian ∧
    (∀ (fe te : Option Endian) (bits : List Bool), 16 ≤ bits.length →
      decodeField (u16F "f" fe) [] te none bits =
        .ok (.uint (decodeScalarBits 16 (effEndian fe te) (bits.take 16)), bits.drop 16)) ∧
    (∀ (ep : Endian) (bits : List Bool), 16 ≤ bits.length →
      decodeContainer (ctxParent ep) [] none none bits =
        .ok (.record [("field_child", .record [("field_a",
          .uint (decodeScalarBits 16 ep (bits.take 16)))])], bits.drop 16)) ∧
    (∀ (k : Nat) (bits : List Bool), k ≤ bits.length →
      decodeContainer (sizeParent k) [] none none bits =
        .ok (.record [("child", .record [("x",
          .uint (decodeScalarBits k systemEndian (bits.take k)))])], bits.drop k)) ∧
    decodeContainer ctxSchema [] none none
        (bitsOfBytes [0xAB, 0xCD, 0xAB, 0xCD, 0xEF, 0xBE]) =
      .ok (.record [("field_be", .uint 0xABCD), ("field_default", .uint 0xCDAB),
        ("field_child", .record [("field_a", .uint 0xBEEF)])], []) ∧
    encodeContainer ctxSchema [] none none
        (.record [("field_be", .uint 0xABCD), ("field_default", .uint 0xCDAB),
          ("field_child", .record [("field_a", .uint 0xBEEF)])]) =
      .ok (bitsOfBytes [0xAB, 0xCD, 0xAB, 0xCD, 0xEF, 0xBE]) := by
  refine ⟨fun e te => rfl, fun e => rfl, rfl, ?_, ?_, ?_, by rfl, by rfl⟩
  · intro fe te bits h
    simp [u16F, scalarField, decodeField, decodeType, readBits, condFalse, h, resolveWidth,
      naturalWidth, applyMap]
  · intro ep bits h
    simp [ctxParent, childSpec, u16F, scalarField, decodeContainer, decodeFields, decodeField,
      decodeType, readBits, condFalse, h, resolveWidth, naturalWidth, applyMap, resolveTop,
      fwdEndian, fwdSize, effEndian, fieldName]
  · intro k bits h
    simp [sizeParent, sizeChild, scalarField, decodeContainer, decodeFields, decodeField,
      decodeType, readBits, condFalse, h, resolveWidth, naturalWidth, applyMap, resolveTop,
      fwdEndian, fwdSize, effEndian, fieldName]

/-- C8 witness: the forwarding conjunct applied to the parent fixed to
big-endian over the bytes `0xEF, 0xBE`. -/
theorem C8_endian_resolution_witness :
    decodeContainer (ctxParent .big) [] none none (bitsOfBytes [0xEF, 0xBE]) =
      .ok (.record [("field_child", .record [("field_a",
        .uint (decodeScalarBits 16 .big ((bitsOfBytes [0xEF, 0xBE]).take 16)))])],
        (bitsOfBytes [0xEF, 0xBE]).drop 16) :=
  C8_endian_resolution.2.2.2.2.1 .big (bitsOfBytes [0xEF, 0xBE]) (by decide)

/-- C9: an enum with the top-level external-id override consumes zero bits
for the discriminant on decode — the id comes from the expression evaluated
in the caller's scope, for any stream contents — and emits zero discriminant
bits on encode; the containing doctest structure round-trips with the
discriminant stored only in the caller's own field. -/
theorem C9_external_id :
    (∀ bits : List Bool,
      decodeEnum myEnum [.uint 2] none none bits = .ok (.variantVal 1 [], bits)) ∧
    encodeEnum myEnum [.uint 2] none none (.variantVal 1 []) = .ok [] ∧
    decodeContainer idSchema [] none none (bitsOfBytes [0x01, 0xFF, 0xAB]) =
      .ok (.record [("my_id", .uint 1), ("data", .uint 0xFF),
        ("enum_from_id", .variantVal 0 [("0", .uint 0xAB)])], []) ∧
    encodeContainer idSchema [] none none
        (.record [("my_id", .uint 1), ("data", .uint 0xFF),
          ("enum_from_id", .variantVal 0 [("0", .uint 0xAB)])]) =
      .ok (bitsOfBytes [0x01, 0xFF, 0xAB]) :=
  ⟨fun _ => rfl, rfl, rfl, rfl⟩

/-- C10: with `bytes = 2` on a `u32` field, decode consumes exactly two
bytes, assembles them little-endian into the wider type (bytes
`0xAB, 0xCD` yield `0xCDAB`, higher bytes zero), the next field continues
immediately after, and encode writes back only those two bytes, so the
value round-trips. -/
theorem C10_bytes_width :
    decodeContainer bytesSchema [] none none (bitsOfBytes [0xAB, 0xCD, 0xFF]) =
      .ok (.record [("field_a", .uint 0xCDAB), ("field_b", .uint 0xFF)], []) ∧
    encodeContainer bytesSchema [] none none
      (.record [("field_a", .uint 0xCDAB), ("field_b", .uint 0xFF)]) =
      .ok (bitsOfBytes [0xAB, 0xCD, 0xFF]) :=
  ⟨rfl, rfl⟩

end Deku
